import Mathlib

set_option autoImplicit false

/-!
Verification of the OpenOmics annotation join engine
(`openomics/database/base.py`, `openomics/database/annotation.py`).

The pandas `DataFrame` is modelled by `DF`: an ordered list of column
names (`cols`), one association row per data row (`rows`, whose key order
always equals `cols`), an index made of one tuple of cells per row
(`idx`), and the list of index level names (`idxNames`; `[]` models the
unnamed default `RangeIndex`, a one element list models a named simple
index, a longer list a `MultiIndex`).  Cells hold string values
(`Option String`; `none` is `NaN`).  Pandas column access is by label,
which the association rows model directly; duplicate column labels are
outside the scope of the claims proved here (label lookup takes the
first occurrence).

Fallible pandas operations (`KeyError`, `ValueError` and friends) are
modelled with `Option`; methods that mutate `self.annotations` are
modelled by `Except DF DF`, where `.ok` carries the final table and
`.error` carries the table as left behind when the Python exception was
raised (assignments that already happened persist).

Deviations from pandas that are deliberate, commented where they occur:
group-by keys are kept in order of first appearance (pandas sorts them;
no claim below depends on the order of group keys), and `reset_index` on
a frame whose index is the unnamed default inserts nothing (pandas would
insert a column literally named `index`; the modelled flows only reset
named indexes).
-/

abbrev Val := String
abbrev Cell := Option Val
abbrev Row := List (String × Cell)

deriving instance DecidableEq for Except

structure DF where
  idxNames : List String
  idx : List (List Cell)
  cols : List String
  rows : List Row
deriving DecidableEq, Repr

/-- Label lookup in one row: the cell of the first pair carrying the
column name `c`, `none` when the row has no such pair. -/
def rowCell : Row → String → Cell
  | [], _ => none
  | p :: r, c => if p.1 = c then p.2 else rowCell r c

/-- Well-formedness of a modelled frame: index and rows have the same
length, every row's key sequence is exactly `cols`, and every index
tuple has one cell per index level. -/
def DF.WF (df : DF) : Prop :=
  df.idx.length = df.rows.length ∧
  (∀ r ∈ df.rows, r.map Prod.fst = df.cols) ∧
  (∀ k ∈ df.idx, k.length = df.idxNames.length)

instance (df : DF) : Decidable df.WF := by
  unfold DF.WF
  infer_instance

/-- The cells of column `c`, top to bottom. -/
def getCol (df : DF) (c : String) : List Cell :=
  df.rows.map (fun r => rowCell r c)

/-- Distinct values in order of first appearance (the semantics of
`pandas.Series.unique`). -/
def uniqueFirstAux {α : Type} [DecidableEq α] (seen : List α) : List α → List α
  | [] => []
  | a :: l => if a ∈ seen then uniqueFirstAux seen l else a :: uniqueFirstAux (a :: seen) l

def uniqueFirst {α : Type} [DecidableEq α] (l : List α) : List α :=
  uniqueFirstAux [] l

/-- Join a list of strings with a single separator character between
consecutive entries (`"|".join(...)` in Python). -/
def joinSep (sep : String) : List String → String
  | [] => ""
  | [s] => s
  | s :: rest => s ++ sep ++ joinSep sep rest

/-- The aggregation lambda of `RNAcentral.load_data`
(`annotation.py`): `lambda x: "|".join(x.unique())`. -/
def rnacentral_join_uniques (l : List Val) : Val :=
  joinSep "|" (uniqueFirst l)

/-- Modelled from the spec: `concat_uniques` / `concat_uniques_agg`
(`openomics.utils.df`, whose source file is not under `src/`): per group
and per value column, the values observed are collapsed to their unique
string representations in order of first appearance and joined with the
separator `|`; missing cells carry no value.  A group whose cells are
all missing aggregates to a missing cell. -/
def concat_uniques (cells : List Cell) : Cell :=
  match uniqueFirst (cells.filterMap id) with
  | [] => none
  | vs => some (joinSep "|" vs)

/-- Python `col[-1] == "_"` on a column name (`False` on the empty name,
where Python would raise `IndexError`; no modelled flow produces an
empty column name). -/
def strEndsUnderscore (c : String) : Bool :=
  c.toList.getLast? = some '_'

/-- Python `str.strip("_")`: remove leading and trailing underscores. -/
def stripUnderscores (s : String) : String :=
  String.mk (((s.toList.dropWhile (fun ch => ch = '_')).reverse.dropWhile
    (fun ch => ch = '_')).reverse)

/-- A column name that is nonempty and neither starts nor ends with the
underscore marker used by the join's `rsuffix`. -/
def cleanName (c : String) : Prop :=
  c.toList ≠ [] ∧ c.toList.head? ≠ some '_' ∧ c.toList.getLast? ≠ some '_'

instance (c : String) : Decidable (cleanName c) := by
  unfold cleanName; infer_instance

/-- Projection of one row onto the listed columns, in list order
(`df[cols]` row-wise). -/
def selectRow (r : Row) (cs : List String) : Row :=
  cs.map (fun c => (c, rowCell r c))

/-- `df[cs]`: column projection, `KeyError` (`none`) when some listed
column is absent. -/
def selectCols (df : DF) (cs : List String) : Option DF :=
  if ∀ c ∈ cs, c ∈ df.cols then
    some { idxNames := df.idxNames, idx := df.idx, cols := cs,
           rows := df.rows.map (fun r => selectRow r cs) }
  else none

/-- `df.filter(items=cs)`: keep the listed columns that exist, in list
order; missing entries are silently skipped. -/
def filterItems (df : DF) (cs : List String) : DF :=
  let kept := cs.filter (fun c => c ∈ df.cols)
  { idxNames := df.idxNames, idx := df.idx, cols := kept,
    rows := df.rows.map (fun r => selectRow r kept) }

/-- `df.set_index(names)` (a single name is the one element list): the
named columns become the index levels, in order, and leave the column
set; `KeyError` (`none`) when a name is absent. -/
def setIndexMany (df : DF) (names : List String) : Option DF :=
  if ∀ c ∈ names, c ∈ df.cols then
    some { idxNames := names,
           idx := df.rows.map (fun r => names.map (fun c => rowCell r c)),
           cols := df.cols.filter (fun c => ¬ c ∈ names),
           rows := df.rows.map (fun r => r.filter (fun p => ¬ p.1 ∈ names)) }
  else none

/-- `df.reset_index()`: the index levels become leading columns (in
level order) and the index becomes the unnamed default.  Pandas raises
(`none`) when an index level name collides with an existing column.
(On the unnamed default index pandas would insert a column named
`index`; the modelled flows only reset named indexes.) -/
def resetIndexOpt (df : DF) : Option DF :=
  if ∀ n ∈ df.idxNames, ¬ n ∈ df.cols then
    some { idxNames := [],
           idx := (df.idx.zip df.rows).map (fun _ => []),
           cols := df.idxNames ++ df.cols,
           rows := (df.idx.zip df.rows).map (fun p => (df.idxNames.zip p.1) ++ p.2) }
  else none

/-- The rows of `r` whose index tuple equals the key `k`; a key with a
missing component matches nothing (pandas `NaN` never equals `NaN` in a
join). -/
def rightMatches (r : DF) (k : List Cell) : List Row :=
  if k.all (fun c => c.isSome) then
    ((r.idx.zip r.rows).filter (fun p => p.1 = k)).map (fun p => p.2)
  else []

/-- The `rsuffix="_"` renaming: a right column whose name collides with
a left column gets a trailing underscore. -/
def renameR (lcols : List String) (c : String) : String :=
  if c ∈ lcols then c ++ "_" else c

/-- `left.join(right, on=key, rsuffix="_")` where `key` is the left
frame's index: a left outer join of `right`'s index against the left
index.  Every left row is kept; a left row with several matches on the
right is repeated once per match; colliding right columns are suffixed
with `_`. -/
def joinPairs (l r : DF) : List (List Cell × Row) :=
  (l.idx.zip l.rows).flatMap (fun p =>
    match rightMatches r p.1 with
    | [] => [(p.1, p.2 ++ r.cols.map (fun c => (renameR l.cols c, (none : Cell))))]
    | rr :: rest => (rr :: rest).map
        (fun m => (p.1, p.2 ++ m.map (fun q => (renameR l.cols q.1, q.2)))))

def joinDF (l r : DF) : DF :=
  { idxNames := l.idxNames,
    idx := (joinPairs l r).map (fun p => p.1),
    cols := l.cols ++ r.cols.map (renameR l.cols),
    rows := (joinPairs l r).map (fun p => p.2) }

/-- `df[target].fillna(df[src], inplace=True)`: fill the missing cells
of `target` from `src`, row by row; `KeyError` (`none`) when either
column is absent. -/
def fillnaFromCol (df : DF) (target src : String) : Option DF :=
  if target ∈ df.cols ∧ src ∈ df.cols then
    some { df with rows := df.rows.map (fun r =>
      r.map (fun p => if p.1 = target then
        (p.1, p.2.orElse (fun _ => rowCell r src)) else p)) }
  else none

/-- `df.drop(columns=c)`: remove the column; `KeyError` (`none`) when
absent. -/
def dropCol (df : DF) (c : String) : Option DF :=
  if c ∈ df.cols then
    some { idxNames := df.idxNames, idx := df.idx,
           cols := df.cols.filter (fun x => ¬ x = c),
           rows := df.rows.map (fun r => r.filter (fun p => ¬ p.1 = c)) }
  else none

/-- The cells to group by for `df.groupby(key)`: the index level when
`key` names the frame's (simple) index, else the column `key`;
`KeyError` (`none`) when neither exists. -/
def keyCellsOf (df : DF) (key : String) : Option (List Cell) :=
  if df.idxNames = [key] then some (df.idx.map (fun t => t.headD none))
  else if key ∈ df.cols then some (getCol df key) else none

/-- `df.groupby(key).agg({c: red for c in vcols})`: rows with a missing
key are dropped, each distinct key yields one output row, and `red` is
applied per value column to the cells of the group's rows in input
order.  Pandas sorts the group keys; the model keeps them in order of
first appearance, a difference none of the proved claims can observe. -/
def groupbyAgg (df : DF) (key : String) (vcols : List String)
    (red : List Cell → Cell) : Option DF :=
  (keyCellsOf df key).map (fun kc =>
    let keys := uniqueFirst (kc.filterMap id)
    { idxNames := [key],
      idx := keys.map (fun v => [some v]),
      cols := vcols,
      rows := keys.map (fun v =>
        let grp := ((kc.zip df.rows).filter (fun p => p.1 = some v)).map (fun p => p.2)
        vcols.map (fun c => (c, red (grp.map (fun r => rowCell r c))))) })

/-- `Dataset.get_annotations` of `base.py` (lines 160-207).  Returns the
aggregated frame (`none` on a raised exception) together with the final
state of the caller's `columns` list, which the method mutates in place
(`columns.pop(columns.index(index))`).  The aggregation function
dispatch on the `agg` string ("concat" to `concat_uniques`, other names
to the pandas built-ins) is abstracted into the reducer `red` applied
uniformly per column. -/
def popIndex (index : String) (columns : List String) : List String :=
  if index ∈ columns then columns.erase index else columns

def get_annotations_base (data : DF) (index : String) (columns : List String)
    (red : List Cell → Cell) : Option DF × List String :=
  if ∀ c ∈ columns, c ∈ data.cols then
    ((selectCols data (popIndex index columns ++ [index])).bind (fun df =>
      (if ¬ data.idxNames = [index] then setIndexMany df [index] else some df).bind (fun df2 =>
        groupbyAgg df2 index (popIndex index columns) red)),
     popIndex index columns)
  else (none, columns)

/-- `Dataset.get_annotations` of `annotation.py` (lines 53-85): selects
with `filter(items=...)` (missing columns silently skipped), pops the
index from the caller's list when present, groups by the index with the
`concat_uniques_agg` reducer, and raises `ValueError` (`none`) when the
aggregated index has duplicates.  Also returns the final state of the
caller's `columns` list. -/
def annSelect (data : DF) (index : String) (columns : List String) : DF :=
  if index ∈ columns then filterItems data columns
  else filterItems data (columns ++ [index])

def get_annotations_ann (data : DF) (index : String)
    (columns : List String) : Option DF × List String :=
  ((if ¬ data.idxNames = [index] ∧ index ∈ data.cols
    then setIndexMany (annSelect data index columns) [index]
    else some (annSelect data index columns)).bind (fun df1 =>
      (groupbyAgg df1 index (popIndex index columns) concat_uniques).bind (fun out =>
        if out.idx.Nodup then some out else none)),
   popIndex index columns)

/-- The fuzzy index rewrite of `Annotatable.annotate_genomics`
(`base.py` lines 284-286):
`database_df.index.map(lambda x: difflib.get_close_matches(x, self.annotations.index)[0])`.
`matcher` stands for the external `difflib.get_close_matches`
capability: given a key and the current index values it returns the
candidate matches, best first.  An empty candidate list makes the `[0]`
subscript raise `IndexError` (`none`). -/
def fuzzyRewrite (matcher : Val → List (List Cell) → List Val)
    (db ann : DF) : Option DF :=
  (db.idx.mapM (fun k =>
    match k with
    | [some v] => (matcher v ann.idx).head?.map (fun m => [(some m : Cell)])
    | _ => none)).map (fun newIdx => { db with idx := newIdx })

/-- The column collision loop of `annotate_genomics`: for every column
name ending in `_` (computed up front), fill the column named by
stripping underscores from it, then (in `base.py`, `doDrop = true`) drop
the suffixed column; `annotation.py` leaves the suffixed column in
place (its drop is commented out). -/
def mergeGo (doDrop : Bool) : DF → List String → Except DF DF
  | st, [] => .ok st
  | st, c :: cs =>
    match fillnaFromCol st (stripUnderscores c) c with
    | none => .error st
    | some st1 =>
      if doDrop then
        match dropCol st1 c with
        | none => .error st1
        | some st2 => mergeGo doDrop st2 cs
      else mergeGo doDrop st1 cs

def mergeLoop (doDrop : Bool) (st : DF) : Except DF DF :=
  mergeGo doDrop st (st.cols.filter (fun c => strEndsUnderscore c))

/-- The pure row action of the `base.py` collision loop: for each
marker column in order, fill the stripped target from it and remove the
marker pair.  `mergeGo true` maps every row by this function. -/
def mergeRows : List String → Row → Row
  | [], r => r
  | x :: cs, r => mergeRows cs
      ((r.map (fun p => if p.1 = stripUnderscores x then
          (p.1, p.2.orElse (fun _ => rowCell r x)) else p)).filter
        (fun p => ¬ p.1 = x))

/-- The join and index round trip of `annotate_genomics` (both
versions; `doDrop` distinguishes whether the collision loop drops the
suffixed columns).  When `index` names the current (simple) index the
join happens in place; otherwise the index is reset, the frame is
re-keyed to `index`, joined, reset again and re-keyed to the saved
index names (the `MultiIndex` branch of the source saves the name list;
a single named index is the one element list). -/
def joinStage (doDrop : Bool) (index : String) (ann dbdf2 : DF) : Except DF DF :=
  if ann.idxNames = [index] then
    mergeLoop doDrop (joinDF ann dbdf2)
  else
    match resetIndexOpt ann with
    | none => .error ann
    | some s1 =>
      match setIndexMany s1 [index] with
      | none => .error s1
      | some s2 =>
        match resetIndexOpt (joinDF s2 dbdf2) with
        | none => .error s2
        | some s4 =>
          match setIndexMany s4 ann.idxNames with
          | none => .error s4
          | some s5 => mergeLoop doDrop s5

/-- `Annotatable.annotate_genomics` of `base.py` (lines 268-316).  The
`Except` value carries the final `self.annotations`: `.ok` on success,
`.error` with the table as left behind at the raised exception
(assignments already executed persist, which is what makes the
operation non-atomic). -/
def annotate_genomics_base (matcher : Val → List (List Cell) → List Val)
    (fuzzy : Bool) (data : DF) (index : String) (columns : List String)
    (red : List Cell → Cell) (ann : DF) : Except DF DF :=
  match (get_annotations_base data index columns red).1 with
  | none => .error ann
  | some dbdf =>
    match (if fuzzy then fuzzyRewrite matcher dbdf ann else some dbdf) with
    | none => .error ann
    | some dbdf2 => joinStage true index ann dbdf2

/-- The join and index round trip of `annotation.py`
(`annotate_genomics`, lines 152-162).  The saved index is
`self.annotations.index.name` (line 156): the name of a single level
index, `None` on a `MultiIndex` (only `base.py` has the `MultiIndex`
branch saving the full name list), so on a composite-index store the
restore reaches `set_index(None)` and raises, leaving the reset joined
frame behind. -/
def joinStageAnn (index : String) (ann dbdf2 : DF) : Except DF DF :=
  if ann.idxNames = [index] then
    mergeLoop false (joinDF ann dbdf2)
  else
    match resetIndexOpt ann with
    | none => .error ann
    | some s1 =>
      match setIndexMany s1 [index] with
      | none => .error s1
      | some s2 =>
        match resetIndexOpt (joinDF s2 dbdf2) with
        | none => .error s2
        | some s4 =>
          match ann.idxNames with
          | [n] =>
            match setIndexMany s4 [n] with
            | none => .error s4
            | some s5 => mergeLoop false s5
          | _ => .error s4

/-- `Annotatable.annotate_genomics` of `annotation.py` (lines 143-168):
same join shape as `base.py` but no fuzzy matching, the collision loop
does not drop the suffixed columns, and the saved index is the single
`index.name` (see `joinStageAnn`). -/
def annotate_genomics_ann (data : DF) (index : String)
    (columns : List String) (ann : DF) : Except DF DF :=
  match (get_annotations_ann data index columns).1 with
  | none => .error ann
  | some dbdf => joinStageAnn index ann dbdf

/-- `Annotatable.initialize_annotations`: an empty frame with one row
per identifier, indexed by the identifier list under the given index
name. -/
def initialize_annots (geneList : List Val) (index : String) : DF :=
  { idxNames := [index],
    idx := geneList.map (fun g => [(some g : Cell)]),
    cols := [],
    rows := geneList.map (fun _ => []) }

/-- One join call of a sequence: resource table, key, requested columns
and reducer. -/
structure JoinSpec where
  data : DF
  index : String
  columns : List String
  red : List Cell → Cell

/-- A finite sequence of (non-fuzzy) `annotate_genomics` calls on the
store, stopping at the first raised exception. -/
def applySteps : List JoinSpec → DF → Except DF DF
  | [], ann => .ok ann
  | s :: ss, ann =>
    match annotate_genomics_base (fun _ _ => []) false s.data s.index s.columns s.red ann with
    | .error st => .error st
    | .ok st => applySteps ss st

def exState : Except DF DF → DF
  | .ok d => d
  | .error d => d

def exIsOk : Except DF DF → Bool
  | .ok _ => true
  | .error _ => false

/-- The join key of row `i` of the store, as `annotate_genomics` uses
it: the index tuple itself when `index` names the current simple index,
else the single cell found under `index` after the reset (an index
level when `index` is one of the level names, the column `index`
otherwise). -/
def keyAt (ann : DF) (index : String) (i : Nat) : List Cell :=
  if ann.idxNames = [index] then ann.idx.getD i []
  else [rowCell ((ann.idxNames.zip (ann.idx.getD i [])) ++ ann.rows.getD i []) index]

/-- The incoming value of column `c` for join key `k`: the cell of the
matching aggregated row, missing when the key has no match. -/
def incomingAt (r : DF) (k : List Cell) (c : String) : Cell :=
  match rightMatches r k with
  | [] => none
  | rr :: _ => rowCell rr c

/-- The right-hand part a left row with key `k` receives in the join:
the (suffix-renamed) matching right row, or a row of missing cells when
`k` matches nothing.  When the right index has no duplicates this is
the whole contribution of the right frame to that left row. -/
def joinTail (r : DF) (lcols : List String) (k : List Cell) : Row :=
  match rightMatches r k with
  | [] => r.cols.map (fun c => (renameR lcols c, (none : Cell)))
  | rr :: _ => rr.map (fun q => (renameR lcols q.1, q.2))

/-! Sequence resolution (`GENCODE.get_sequences`,
`MirBase.get_sequences`, `annotation.py` lines 252-299 and 360-389).
The Python `seq_dict` is an insertion ordered association list whose
entries are a single string or (under the `all` policy) a list of
strings; Python `len` on an entry is the string length or the list
length. -/

inductive SeqEntry where
  | str : String → SeqEntry
  | lst : List String → SeqEntry
deriving DecidableEq, Repr

def SeqEntry.pyLen : SeqEntry → Nat
  | .str s => s.length
  | .lst l => l.length

abbrev SeqDict := List (String × SeqEntry)

def dictLookup : SeqDict → String → Option SeqEntry
  | [], _ => none
  | p :: d, k => if p.1 = k then some p.2 else dictLookup d k

/-- Python `d[k] = v`: replace in place when the key exists, append
otherwise. -/
def dictSet : SeqDict → String → SeqEntry → SeqDict
  | [], k, v => [(k, v)]
  | p :: d, k, v => if p.1 = k then (k, v) :: d else p :: dictSet d k v

/-- `str.replace("U", "T")` (single character replacement). -/
def replaceUT (s : String) : String :=
  String.mk (s.toList.map (fun ch => if ch = 'U' then 'T' else ch))

/-- The per-record dictionary update shared by `MirBase.get_sequences`
(where it is the whole loop body) and by the `"gene" in index` branches
of `GENCODE.get_sequences`: `shortest` and `longest` keep the extremal
length entry with a strict comparison (ties keep the first seen), `all`
accumulates a list in first-seen order, and any other policy string
overwrites.  (An `all` append onto a string entry would raise
`AttributeError` in Python; it cannot occur when the dictionary is
built from empty under one fixed policy, and the model leaves the entry
unchanged there.) -/
def update_seq_dict (policy : String) (d : SeqDict) (k s : String) : SeqDict :=
  if policy = "shortest" then
    match dictLookup d k with
    | none => dictSet d k (.str s)
    | some e => if e.pyLen > s.length then dictSet d k (.str s) else d
  else if policy = "longest" then
    match dictLookup d k with
    | none => dictSet d k (.str s)
    | some e => if e.pyLen < s.length then dictSet d k (.str s) else d
  else if policy = "all" then
    match dictLookup d k with
    | none => dictSet d k (.lst [s])
    | some e =>
      match e with
      | .lst l => dictSet d k (.lst (l ++ [s]))
      | .str _ => d
  else dictSet d k (.str s)

/-- `MirBase.get_sequences`: fold the hairpin records (identifier,
sequence) through the policy update; the requested identifier space is
ignored by the source. -/
def get_sequences_mirbase (policy : String) (u2t : Bool)
    (records : List (String × String)) : SeqDict :=
  records.foldl (fun d p =>
    update_seq_dict policy d p.1 (if u2t then replaceUT p.2 else p.2)) []

/-- Python `str.split(sep)` for a one character separator (empty pieces
kept). -/
def splitOnCharAux (sep : Char) : List Char → List Char → List (List Char)
  | [], acc => [acc.reverse]
  | ch :: rest, acc =>
    if ch = sep then acc.reverse :: splitOnCharAux sep rest []
    else splitOnCharAux sep rest (ch :: acc)

def splitOnChar (sep : Char) (s : String) : List String :=
  (splitOnCharAux sep s.toList []).map String.mk

/-- Substring test (`"gene" in index` in Python). -/
def listContainsSub (needle : List Char) : List Char → Bool
  | [] => needle.isEmpty
  | ch :: rest => needle.isPrefixOf (ch :: rest) || listContainsSub needle rest

def strContainsSub (hay sub : String) : Bool :=
  listContainsSub sub.toList hay.toList

/-- Key extraction of `GENCODE.get_sequences` from a FASTA record id:
split on `|`, pick the positional field of the requested identifier
space, strip the `.` version suffix for ids.  `none` models the raised
exception (unknown identifier space, or `IndexError` on a too short
header). -/
def gencode_key (index rid : String) : Option String :=
  let parts := splitOnChar '|' rid
  if index = "gene_id" then (parts.get? 1).map (fun t => (splitOnChar '.' t).headD "")
  else if index = "gene_name" then parts.get? 5
  else if index = "transcript_id" then (parts.get? 0).map (fun t => (splitOnChar '.' t).headD "")
  else if index = "transcript_name" then parts.get? 4
  else none

/-- The per-record update of `GENCODE.get_sequences`: the selection
policy is consulted only when the index name contains `"gene"`; for any
other identifier space every record plainly overwrites the entry. -/
def gencode_update (index policy : String) (d : SeqDict) (k s : String) : SeqDict :=
  if strContainsSub index "gene" then update_seq_dict policy d k s
  else dictSet d k (.str s)

/-- `GENCODE.get_sequences`: fold the FASTA records (header id,
sequence); `none` when key extraction raises on some record. -/
def get_sequences_gencode (index policy : String) (u2t : Bool)
    (records : List (String × String)) : Option SeqDict :=
  records.foldlM (fun d p =>
    (gencode_key index p.1).map (fun k =>
      gencode_update index policy d k (if u2t then replaceUT p.2 else p.2))) []

/-- The sequences a record stream holds for identifier `k`, in stream
order, after the U-to-T normalization (for `MirBase`, whose key is the
record id itself). -/
def group_seqs (u2t : Bool) (k : String) (records : List (String × String)) : List String :=
  (records.filter (fun p => p.1 = k)).map (fun p => if u2t then replaceUT p.2 else p.2)

/-- The per-key transition the dictionary update realizes for the key
it touches: given the current entry (if any) and the incoming
normalized sequence, the entry the update leaves behind. -/
def seq_step (policy : String) (e : Option SeqEntry) (s : String) : SeqEntry :=
  if policy = "shortest" then
    match e with
    | none => .str s
    | some e0 => if e0.pyLen > s.length then .str s else e0
  else if policy = "longest" then
    match e with
    | none => .str s
    | some e0 => if e0.pyLen < s.length then .str s else e0
  else if policy = "all" then
    match e with
    | none => .lst [s]
    | some e0 =>
      match e0 with
      | .lst l => .lst (l ++ [s])
      | .str _ => e0
  else .str s

/-- The transition realized by the plain overwrite `seq_dict[key] = s`
(the non-gene branch of `GENCODE.get_sequences`). -/
def ov_step (e : Option SeqEntry) (s : String) : SeqEntry :=
  match e with
  | _ => .str s

/-- The entry a key holds after folding its group's sequences through a
per-key transition, starting from the given entry. -/
def seq_fold_tr (tr : Option SeqEntry → String → SeqEntry)
    (e : Option SeqEntry) : List String → Option SeqEntry
  | [] => e
  | s :: ss => seq_fold_tr tr (some (tr e s)) ss

/-- `m` is the first element of minimal length: everything before it is
strictly longer, everything after it no shorter. -/
def isFirstMin (m : String) (l : List String) : Prop :=
  ∃ pre post, l = pre ++ m :: post ∧ (∀ y ∈ pre, m.length < y.length) ∧
    (∀ y ∈ post, m.length ≤ y.length)

/-- `m` is the first element of maximal length. -/
def isFirstMax (m : String) (l : List String) : Prop :=
  ∃ pre post, l = pre ++ m :: post ∧ (∀ y ∈ pre, y.length < m.length) ∧
    (∀ y ∈ post, y.length ≤ m.length)

/-! Concrete frames and record streams used by witnesses and
counterexamples below. -/

def W1data : DF :=
  { idxNames := [], idx := [[], [], []],
    cols := ["gene_id", "go"],
    rows := [[("gene_id", some "G1"), ("go", some "GO:1")],
             [("gene_id", some "G1"), ("go", some "GO:2")],
             [("gene_id", some "G2"), ("go", some "GO:3")]] }

def W1out : DF :=
  { idxNames := ["gene_id"], idx := [[some "G1"], [some "G2"]], cols := ["go"],
    rows := [[("go", some "GO:1|GO:2")], [("go", some "GO:3")]] }

def W5data : DF :=
  { idxNames := [], idx := [[], [], [], []],
    cols := ["k", "x"],
    rows := [[("k", some "K"), ("x", some "a")],
             [("k", some "K"), ("x", some "b")],
             [("k", some "K"), ("x", some "a")],
             [("k", some "K"), ("x", some "c")]] }

def W5out : DF :=
  { idxNames := ["k"], idx := [[some "K"]], cols := ["x"],
    rows := [[("x", some "a|b|c")]] }

def X6ann : DF := initialize_annots ["G1"] "gene_id"

def X6data : DF :=
  { idxNames := [], idx := [[], []],
    cols := ["gene_id", "go"],
    rows := [[("gene_id", some "G1a"), ("go", some "GO:1")],
             [("gene_id", some "G1b"), ("go", some "GO:2")]] }

def X6db : DF :=
  { idxNames := ["gene_id"], idx := [[some "G1a"], [some "G1b"]],
    cols := ["go"],
    rows := [[("go", some "GO:1")], [("go", some "GO:2")]] }

def X7ann : DF := initialize_annots ["G1", "G2"] "gene_id"

def X7data : DF :=
  { idxNames := [], idx := [[], []],
    cols := ["gene_id", "go"],
    rows := [[("gene_id", some "G1x"), ("go", some "GO:7")],
             [("gene_id", some "G1y"), ("go", some "GO:8")]] }

def X7db : DF :=
  { idxNames := ["gene_id"], idx := [[some "G1x"], [some "G1y"]],
    cols := ["go"],
    rows := [[("go", some "GO:7")], [("go", some "GO:8")]] }

def X8ann : DF :=
  { idxNames := ["gene_id"], idx := [[some "G1"]], cols := ["x"],
    rows := [[("x", some "1")]] }

def X8data : DF :=
  { idxNames := [], idx := [[]], cols := ["k2", "y"],
    rows := [[("k2", some "A"), ("y", some "2")]] }

def X8err : DF :=
  { idxNames := [], idx := [[]], cols := ["gene_id", "x"],
    rows := [[("gene_id", some "G1"), ("x", some "1")]] }

def W9recs : List (String × String) :=
  [("m1", "AAAAA"), ("m1", "AA"), ("m1", "AAA"), ("m2", "C")]

def W9grecs : List (String × String) :=
  [("T1.1|G1.9|x", "AAAAA"), ("T2.1|G1.2|x", "AA")]

def W9gkrecs : List (String × String) :=
  [("G1", "AAAAA"), ("G1", "AA")]

def W9trecs : List (String × String) :=
  [("T1.1|x", "AAA"), ("T1.2|x", "AAAAA")]

def W9tkrecs : List (String × String) :=
  [("T1", "AAA"), ("T1", "AAAAA")]

def WC2out : DF :=
  { idxNames := ["gene_id"],
    idx := [[some "G1"], [some "G2"], [some "G3"]],
    cols := ["go"],
    rows := [[("go", some "GO:1|GO:2")], [("go", some "GO:3")], [("go", none)]] }

def X4ann : DF :=
  { idxNames := ["gid"], idx := [[some "G1"]], cols := ["k"],
    rows := [[("k", some "K1")]] }

def X4data : DF :=
  { idxNames := [], idx := [[], []], cols := ["k", "x"],
    rows := [[("k", some "K1a"), ("x", some "1")],
             [("k", some "K1b"), ("x", some "2")]] }

def W4ann : DF :=
  { idxNames := ["gid", "tid"],
    idx := [[some "G1", some "T1"], [some "G2", some "T2"]],
    cols := ["k"],
    rows := [[("k", some "K1")], [("k", some "K2")]] }

def W4data : DF :=
  { idxNames := [], idx := [[], []], cols := ["k", "x"],
    rows := [[("k", some "K1"), ("x", some "7")],
             [("k", some "K2"), ("x", some "8")]] }

def W4out : DF :=
  { idxNames := ["gid", "tid"],
    idx := [[some "G1", some "T1"], [some "G2", some "T2"]],
    cols := ["k", "x"],
    rows := [[("k", some "K1"), ("x", some "7")],
             [("k", some "K2"), ("x", some "8")]] }

def W4annS : DF :=
  { idxNames := ["gid"], idx := [[some "G1"], [some "G2"]], cols := ["k"],
    rows := [[("k", some "K1")], [("k", some "K2")]] }

def W4outS : DF :=
  { idxNames := ["gid"], idx := [[some "G1"], [some "G2"]], cols := ["k", "x"],
    rows := [[("k", some "K1"), ("x", some "7")],
             [("k", some "K2"), ("x", some "8")]] }

def X3ann : DF :=
  { idxNames := ["gene_id"], idx := [[some "G1"]], cols := ["x"],
    rows := [[("x", some "1")]] }

def X3data : DF :=
  { idxNames := [], idx := [[]], cols := ["gene_id", "x"],
    rows := [[("gene_id", some "G1"), ("x", some "9")]] }

def X3uann : DF :=
  { idxNames := ["gene_id"], idx := [[some "G1"]], cols := ["x", "_x_"],
    rows := [[("x", none), ("_x_", some "5")]] }

def X3vann : DF :=
  { idxNames := ["gene_id"], idx := [[some "G1"]], cols := ["x"],
    rows := [[("x", none)]] }

def X3vdata : DF :=
  { idxNames := [], idx := [[]], cols := ["gene_id", "x", "_x_"],
    rows := [[("gene_id", some "G1"), ("x", none), ("_x_", some "7")]] }

def W3bann : DF :=
  { idxNames := ["gid"], idx := [[some "G1"], [some "G2"]], cols := ["k", "x"],
    rows := [[("k", some "K1"), ("x", some "1")], [("k", some "K2"), ("x", none)]] }

def W3bdata : DF :=
  { idxNames := [], idx := [[], []], cols := ["k", "x"],
    rows := [[("k", some "K1"), ("x", some "9")],
             [("k", some "K2"), ("x", some "7")]] }

def W3bdb : DF :=
  { idxNames := ["k"], idx := [[some "K1"], [some "K2"]], cols := ["x"],
    rows := [[("x", some "9")], [("x", some "7")]] }

def W3bout : DF :=
  { idxNames := ["gid"], idx := [[some "G1"], [some "G2"]], cols := ["k", "x"],
    rows := [[("k", some "K1"), ("x", some "1")], [("k", some "K2"), ("x", some "7")]] }

/-! Generic lemmas: first-appearance deduplication. -/

theorem uniqueFirstAux_sublist {α : Type} [DecidableEq α] (seen : List α) :
    ∀ l : List α, List.Sublist (uniqueFirstAux seen l) l := by
  intro l
  induction l generalizing seen with
  | nil => simp [uniqueFirstAux]
  | cons a l ih =>
    by_cases h : a ∈ seen
    · simpa [uniqueFirstAux, h] using (ih seen).cons a
    · simpa [uniqueFirstAux, h] using (ih (a :: seen)).cons₂ a

theorem mem_uniqueFirstAux {α : Type} [DecidableEq α] (seen : List α) (x : α) :
    ∀ l : List α, x ∈ uniqueFirstAux seen l ↔ x ∈ l ∧ x ∉ seen := by
  intro l
  induction l generalizing seen with
  | nil => simp [uniqueFirstAux]
  | cons a l ih =>
    by_cases h : a ∈ seen
    · rw [uniqueFirstAux, if_pos h, ih seen]
      constructor
      · rintro ⟨hl, hs⟩
        exact ⟨List.mem_cons_of_mem a hl, hs⟩
      · rintro ⟨hm, hs⟩
        rcases List.mem_cons.1 hm with rfl | hl
        · exact absurd h hs
        · exact ⟨hl, hs⟩
    · rw [uniqueFirstAux, if_neg h]
      constructor
      · intro hm
        rcases List.mem_cons.1 hm with rfl | hm2
        · exact ⟨List.mem_cons_self x l, h⟩
        · obtain ⟨hl, hs⟩ := (ih (a :: seen)).1 hm2
          exact ⟨List.mem_cons_of_mem a hl, fun hx => hs (List.mem_cons_of_mem a hx)⟩
      · rintro ⟨hm, hs⟩
        rcases List.mem_cons.1 hm with rfl | hl
        · exact List.mem_cons_self x _
        · by_cases hax : x = a
          · subst hax; exact List.mem_cons_self x _
          · exact List.mem_cons_of_mem a
              ((ih (a :: seen)).2 ⟨hl, fun hx => (List.mem_cons.1 hx).elim hax hs⟩)

theorem nodup_uniqueFirstAux {α : Type} [DecidableEq α] (seen : List α) :
    ∀ l : List α, (uniqueFirstAux seen l).Nodup := by
  intro l
  induction l generalizing seen with
  | nil => simp [uniqueFirstAux]
  | cons a l ih =>
    by_cases h : a ∈ seen
    · simpa [uniqueFirstAux, h] using ih seen
    · rw [uniqueFirstAux, if_neg h]
      refine List.nodup_cons.2 ⟨?_, ih (a :: seen)⟩
      rw [mem_uniqueFirstAux]
      rintro ⟨-, hs⟩
      exact hs (List.mem_cons_self a seen)

theorem length_uniqueFirstAux {α : Type} [DecidableEq α] (seen : List α) :
    ∀ l : List α, (uniqueFirstAux seen l).length = (l.toFinset \ seen.toFinset).card := by
  intro l
  induction l generalizing seen with
  | nil => simp [uniqueFirstAux]
  | cons a l ih =>
    by_cases h : a ∈ seen
    · rw [uniqueFirstAux, if_pos h, ih seen]
      congr 1
      ext x
      simp only [List.toFinset_cons, Finset.mem_sdiff, Finset.mem_insert, List.mem_toFinset]
      constructor
      · rintro ⟨hx, hs⟩; exact ⟨Or.inr hx, hs⟩
      · rintro ⟨hx | hx, hs⟩
        · exact absurd (hx ▸ h) (by simpa using hs)
        · exact ⟨hx, hs⟩
    · rw [uniqueFirstAux, if_neg h, List.length_cons, ih (a :: seen)]
      have h1 : l.toFinset \ (a :: seen).toFinset
          = (l.toFinset \ seen.toFinset).erase a := by
        ext x
        simp only [List.toFinset_cons, Finset.mem_sdiff, Finset.mem_insert,
          Finset.mem_erase, List.mem_toFinset]
        tauto
      have h2 : (a :: l).toFinset \ seen.toFinset
          = insert a ((l.toFinset \ seen.toFinset).erase a) := by
        ext x
        simp only [List.toFinset_cons, Finset.mem_sdiff, Finset.mem_insert,
          Finset.mem_erase, List.mem_toFinset]
        constructor
        · rintro ⟨hx | hx, hs⟩
          · exact Or.inl hx
          · by_cases hxa : x = a
            · exact Or.inl hxa
            · exact Or.inr ⟨hxa, hx, hs⟩
        · rintro (rfl | ⟨hxa, hx, hs⟩)
          · exact ⟨Or.inl rfl, by simpa using h⟩
          · exact ⟨Or.inr hx, hs⟩
      rw [h1, h2, Finset.card_insert_of_not_mem (Finset.not_mem_erase _ _)]
  
theorem uniqueFirst_sublist {α : Type} [DecidableEq α] (l : List α) :
    List.Sublist (uniqueFirst l) l := uniqueFirstAux_sublist [] l

theorem mem_uniqueFirst {α : Type} [DecidableEq α] (x : α) (l : List α) :
    x ∈ uniqueFirst l ↔ x ∈ l := by
  rw [uniqueFirst, mem_uniqueFirstAux]; simp

theorem nodup_uniqueFirst {α : Type} [DecidableEq α] (l : List α) :
    (uniqueFirst l).Nodup := nodup_uniqueFirstAux [] l

theorem length_uniqueFirst {α : Type} [DecidableEq α] (l : List α) :
    (uniqueFirst l).length = l.toFinset.card := by
  rw [uniqueFirst, length_uniqueFirstAux]; simp

/-! Generic lemmas: label lookup in association rows. -/

theorem rowCell_append_left (r1 r2 : Row) (c : String)
    (h : c ∈ r1.map Prod.fst) : rowCell (r1 ++ r2) c = rowCell r1 c := by
  induction r1 with
  | nil => simp at h
  | cons p r1 ih =>
    rw [List.map_cons] at h
    by_cases hp : p.1 = c
    · simp [rowCell, hp]
    · rcases List.mem_cons.1 h with h1 | h1
      · exact absurd h1.symm hp
      · simp only [List.cons_append, rowCell, if_neg hp]
        exact ih h1

theorem rowCell_append_right (r1 r2 : Row) (c : String)
    (h : ¬ c ∈ r1.map Prod.fst) : rowCell (r1 ++ r2) c = rowCell r2 c := by
  induction r1 with
  | nil => simp
  | cons p r1 ih =>
    have hp : ¬ p.1 = c := fun he => h (by simp [he])
    simp only [List.cons_append, rowCell, if_neg hp]
    exact ih (fun hm => h (by simp at hm ⊢; exact Or.inr hm))

theorem rowCell_graph (cs : List String) (g : String → Cell) (x : String) :
    rowCell (cs.map (fun c => (c, g c))) x = if x ∈ cs then g x else none := by
  induction cs with
  | nil => simp [rowCell]
  | cons c cs ih =>
    rw [List.map_cons]
    by_cases hc : c = x
    · subst hc; simp [rowCell]
    · simp only [rowCell, if_neg hc]
      rw [ih]
      by_cases hx : x ∈ cs
      · rw [if_pos hx, if_pos (List.mem_cons_of_mem c hx)]
      · rw [if_neg hx, if_neg ?_]
        intro hm
        rcases List.mem_cons.1 hm with h1 | h1
        · exact hc h1.symm
        · exact hx h1

theorem rowCell_selectRow (r : Row) (cs : List String) (c : String) :
    rowCell (selectRow r cs) c = if c ∈ cs then rowCell r c else none :=
  rowCell_graph cs (fun x => rowCell r x) c

theorem rowCell_filter_keys (q : String → Bool) (r : Row) (c : String) :
    rowCell (r.filter (fun p => q p.1)) c
      = if q c then rowCell r c else none := by
  induction r with
  | nil => simp [rowCell]
  | cons p r ih =>
    by_cases hp : p.1 = c
    · subst hp
      by_cases hq : q p.1
      · rw [List.filter_cons_of_pos (by simpa using hq)]
        simp [rowCell, hq]
      · rw [List.filter_cons_of_neg (by simpa using hq), ih, if_neg hq, if_neg hq]
    · have hhead : rowCell (p :: r) c = rowCell r c := by
        simp [rowCell, hp]
      by_cases hq : q p.1
      · have hhead2 : rowCell (p :: r.filter (fun p => q p.1)) c
            = rowCell (r.filter (fun p => q p.1)) c := by
          simp [rowCell, hp]
        rw [List.filter_cons_of_pos (by simpa using hq), hhead2, ih, hhead]
      · rw [List.filter_cons_of_neg (by simpa using hq), ih, hhead]

theorem rowCell_fillRow_ne (r : Row) (target : String) (v : Cell) (x : String)
    (h : ¬ x = target) :
    rowCell (r.map (fun p => if p.1 = target then (p.1, p.2.orElse (fun _ => v)) else p)) x
      = rowCell r x := by
  induction r with
  | nil => simp [rowCell]
  | cons p r ih =>
    by_cases hp : p.1 = target
    · simp only [List.map_cons, if_pos hp, rowCell]
      rw [if_neg (by rw [hp]; exact fun he => h he.symm),
        if_neg (by rw [hp]; exact fun he => h he.symm)]
      exact ih
    · simp only [List.map_cons, if_neg hp, rowCell]
      by_cases hx : p.1 = x
      · simp [hx]
      · rw [if_neg hx, if_neg hx]; exact ih

theorem rowCell_fillRow_self (r : Row) (target : String) (v : Cell)
    (h : target ∈ r.map Prod.fst) :
    rowCell (r.map (fun p => if p.1 = target then (p.1, p.2.orElse (fun _ => v)) else p)) target
      = (rowCell r target).orElse (fun _ => v) := by
  induction r with
  | nil => simp at h
  | cons p r ih =>
    rw [List.map_cons] at h
    by_cases hp : p.1 = target
    · simp [List.map_cons, if_pos hp, rowCell, hp]
    · simp only [List.map_cons, if_neg hp, rowCell, if_neg hp]
      rcases List.mem_cons.1 h with h1 | h1
      · exact absurd h1.symm hp
      · exact ih h1

theorem rowCell_map_rename (rrow : Row) (rn : String → String) (c : String)
    (hinj : ∀ k ∈ rrow.map Prod.fst, rn k = rn c → k = c) :
    rowCell (rrow.map (fun q => (rn q.1, q.2))) (rn c) = rowCell rrow c := by
  induction rrow with
  | nil => simp [rowCell]
  | cons q rrow ih =>
    by_cases hq : q.1 = c
    · simp [rowCell, hq]
    · have hrn : ¬ rn q.1 = rn c := fun he =>
        hq (hinj q.1 (by simp) he)
      simp only [List.map_cons, rowCell, if_neg hrn, if_neg hq]
      exact ih (fun k hk he => hinj k (by simp at hk ⊢; exact Or.inr hk) he)

/-! Generic lemmas: the underscore suffix marker. -/

theorem toList_append_underscore (c : String) :
    (c ++ "_").toList = c.toList ++ ['_'] :=
  String.data_append c "_"

theorem strEndsUnderscore_append (c : String) :
    strEndsUnderscore (c ++ "_") = true := by
  simp [strEndsUnderscore, toList_append_underscore]

theorem cleanName_not_endsUnderscore (c : String) (h : cleanName c) :
    strEndsUnderscore c = false := by
  rcases h with ⟨-, -, h3⟩
  simp only [strEndsUnderscore]
  simpa using h3

theorem append_underscore_injective (a b : String)
    (h : a ++ "_" = b ++ "_") : a = b := by
  have hd : a.data ++ "_".data = b.data ++ "_".data := by
    rw [← String.data_append, ← String.data_append, h]
  have hlen : a.data.length = b.data.length := by
    have hl := congrArg List.length hd
    rw [List.length_append, List.length_append] at hl
    omega
  have h2 : a.data = b.data := List.append_inj_left hd hlen
  cases a; cases b
  exact congrArg String.mk h2

theorem renameR_injOn (lcols : List String) (a b : String)
    (ha : cleanName a) (hb : cleanName b)
    (h : renameR lcols a = renameR lcols b) : a = b := by
  unfold renameR at h
  by_cases h1 : a ∈ lcols <;> by_cases h2 : b ∈ lcols
  · rw [if_pos h1, if_pos h2] at h
    exact append_underscore_injective a b h
  · rw [if_pos h1, if_neg h2] at h
    exfalso
    have : strEndsUnderscore b = true := h ▸ strEndsUnderscore_append a
    rw [cleanName_not_endsUnderscore b hb] at this
    exact Bool.false_ne_true this
  · rw [if_neg h1, if_pos h2] at h
    exfalso
    have : strEndsUnderscore a = true := h ▸ strEndsUnderscore_append b
    rw [cleanName_not_endsUnderscore a ha] at this
    exact Bool.false_ne_true this
  · rwa [if_neg h1, if_neg h2] at h

theorem stripUnderscores_append (c : String) (h : cleanName c) :
    stripUnderscores (c ++ "_") = c := by
  obtain ⟨h1, h2, h3⟩ := h
  rw [stripUnderscores, toList_append_underscore]
  cases hc : c.toList with
  | nil => exact absurd hc h1
  | cons x xs =>
    have hx : ¬ x = '_' := by
      intro he
      exact h2 (by rw [hc, he]; rfl)
    have hstep1 : List.dropWhile (fun ch => ch = '_') ((x :: xs) ++ ['_'])
        = x :: (xs ++ ['_']) := by
      rw [List.cons_append, List.dropWhile_cons]
      simp [hx]
    rw [hstep1]
    have hrev : (x :: (xs ++ ['_'])).reverse = '_' :: (xs.reverse ++ [x]) := by
      simp
    rw [hrev, List.dropWhile_cons, if_pos (by simp)]
    have hstep2 : List.dropWhile (fun ch => ch = '_') (xs.reverse ++ [x])
        = xs.reverse ++ [x] := by
      cases hxs : xs.reverse with
      | nil =>
        have hxe : xs = [] := List.reverse_eq_nil_iff.1 hxs
        have hxlast : ¬ x = '_' := by
          intro he
          apply h3
          rw [hc, hxe, he]
          rfl
        simp only [List.nil_append, List.dropWhile_cons, List.dropWhile_nil]
        simp [hxlast]
      | cons y ys =>
        have hxr : (x :: xs).reverse.head? = some y := by
          rw [List.reverse_cons, hxs]
          rfl
        have hlast : (x :: xs).getLast? = some y := by
          rw [← List.head?_reverse]
          exact hxr
        have hy : ¬ y = '_' := by
          intro he
          apply h3
          rw [hc, hlast, he]
        rw [List.cons_append, List.dropWhile_cons]
        simp [hy]
    rw [hstep2]
    have hback : (xs.reverse ++ [x]).reverse = x :: xs := by
      simp
    rw [hback, ← hc]
    cases c
    rfl

/-! Structure lemmas for the frame operations. -/

theorem map_fst_filter_keys (q : String → Bool) (r : Row) :
    (r.filter (fun p => q p.1)).map Prod.fst = (r.map Prod.fst).filter q := by
  induction r with
  | nil => simp
  | cons p r ih =>
    by_cases hq : q p.1
    · rw [List.filter_cons_of_pos (by simpa using hq), List.map_cons, List.map_cons,
        List.filter_cons_of_pos (by simpa using hq), ih]
    · rw [List.filter_cons_of_neg (by simpa using hq), List.map_cons,
        List.filter_cons_of_neg (by simpa using hq), ih]

theorem map_fst_selectRow (r : Row) (cs : List String) :
    (selectRow r cs).map Prod.fst = cs := by
  induction cs with
  | nil => rfl
  | cons c cs ih => simpa [selectRow] using ih

theorem selectCols_spec (df : DF) (cs : List String) (out : DF)
    (h : selectCols df cs = some out) :
    out = { idxNames := df.idxNames, idx := df.idx, cols := cs,
            rows := df.rows.map (fun r => selectRow r cs) } ∧
    ∀ c ∈ cs, c ∈ df.cols := by
  unfold selectCols at h
  split at h
  · exact ⟨(Option.some_inj.1 h).symm, by assumption⟩
  · exact absurd h (by simp)

theorem setIndexMany_spec (df : DF) (names : List String) (out : DF)
    (h : setIndexMany df names = some out) :
    out = { idxNames := names,
            idx := df.rows.map (fun r => names.map (fun c => rowCell r c)),
            cols := df.cols.filter (fun c => ¬ c ∈ names),
            rows := df.rows.map (fun r => r.filter (fun p => ¬ p.1 ∈ names)) } ∧
    ∀ c ∈ names, c ∈ df.cols := by
  unfold setIndexMany at h
  split at h
  · exact ⟨(Option.some_inj.1 h).symm, by assumption⟩
  · exact absurd h (by simp)

theorem resetIndexOpt_spec (df : DF) (out : DF)
    (h : resetIndexOpt df = some out) :
    out = { idxNames := [],
            idx := (df.idx.zip df.rows).map (fun _ => []),
            cols := df.idxNames ++ df.cols,
            rows := (df.idx.zip df.rows).map (fun p => (df.idxNames.zip p.1) ++ p.2) } ∧
    ∀ n ∈ df.idxNames, ¬ n ∈ df.cols := by
  unfold resetIndexOpt at h
  split at h
  · exact ⟨(Option.some_inj.1 h).symm, by assumption⟩
  · exact absurd h (by simp)

theorem fillnaFromCol_spec (df : DF) (target src : String) (out : DF)
    (h : fillnaFromCol df target src = some out) :
    out = { df with rows := df.rows.map (fun r =>
      r.map (fun p => if p.1 = target then
        (p.1, p.2.orElse (fun _ => rowCell r src)) else p)) } ∧
    target ∈ df.cols ∧ src ∈ df.cols := by
  unfold fillnaFromCol at h
  split at h
  · exact ⟨(Option.some_inj.1 h).symm, by assumption⟩
  · exact absurd h (by simp)

theorem dropCol_spec (df : DF) (c : String) (out : DF)
    (h : dropCol df c = some out) :
    out = { idxNames := df.idxNames, idx := df.idx,
            cols := df.cols.filter (fun x => ¬ x = c),
            rows := df.rows.map (fun r => r.filter (fun p => ¬ p.1 = c)) } ∧
    c ∈ df.cols := by
  unfold dropCol at h
  split at h
  · exact ⟨(Option.some_inj.1 h).symm, by assumption⟩
  · exact absurd h (by simp)

theorem groupbyAgg_spec (df : DF) (key : String) (vcols : List String)
    (red : List Cell → Cell) (out : DF)
    (h : groupbyAgg df key vcols red = some out) :
    ∃ kc, keyCellsOf df key = some kc ∧
      out = { idxNames := [key],
              idx := (uniqueFirst (kc.filterMap id)).map (fun v => [some v]),
              cols := vcols,
              rows := (uniqueFirst (kc.filterMap id)).map (fun v =>
                vcols.map (fun c => (c, red ((((kc.zip df.rows).filter
                  (fun p => p.1 = some v)).map (fun p => p.2)).map (fun r => rowCell r c))))) } := by
  unfold groupbyAgg at h
  cases hkc : keyCellsOf df key with
  | none => rw [hkc] at h; exact absurd h (by simp)
  | some kc =>
    rw [hkc] at h
    simp only [Option.map_some] at h
    exact ⟨kc, rfl, (Option.some_inj.1 h).symm⟩

/-! Join lemmas. -/

theorem zip_filter_fst_nil {α β : Type} [DecidableEq α] (k : α) :
    ∀ (as : List α) (bs : List β), k ∉ as →
      (as.zip bs).filter (fun p => p.1 = k) = [] := by
  intro as
  induction as with
  | nil => intro bs h; simp
  | cons a as ih =>
    intro bs h
    cases bs with
    | nil => simp
    | cons b bs =>
      rw [List.zip_cons_cons, List.filter_cons_of_neg
        (by simp; intro he; exact absurd (he ▸ List.mem_cons_self a as) h)]
      exact ih bs (fun hm => h (List.mem_cons_of_mem a hm))

theorem zip_filter_fst_le_one {α β : Type} [DecidableEq α] (k : α) :
    ∀ (as : List α), as.Nodup → ∀ (bs : List β),
      ((as.zip bs).filter (fun p => p.1 = k)).length ≤ 1 := by
  intro as
  induction as with
  | nil => intro _ bs; simp
  | cons a as ih =>
    intro hnd bs
    cases bs with
    | nil => simp
    | cons b bs =>
      rw [List.zip_cons_cons]
      by_cases ha : a = k
      · subst ha
        rw [List.filter_cons_of_pos (by simp)]
        rw [zip_filter_fst_nil a as bs (List.nodup_cons.1 hnd).1]
        simp
      · rw [List.filter_cons_of_neg (by simpa using ha)]
        exact ih (List.nodup_cons.1 hnd).2 bs

theorem rightMatches_le_one (r : DF) (hr : r.idx.Nodup) (k : List Cell) :
    (rightMatches r k).length ≤ 1 := by
  unfold rightMatches
  split
  · rw [List.length_map]
    exact zip_filter_fst_le_one k r.idx hr r.rows
  · simp

theorem mem_rightMatches (r : DF) (k : List Cell) (rr : Row)
    (h : rr ∈ rightMatches r k) : rr ∈ r.rows := by
  unfold rightMatches at h
  split at h
  · simp only [List.mem_map] at h
    obtain ⟨p, hp, rfl⟩ := h
    exact (List.of_mem_zip (List.mem_of_mem_filter hp)).2
  · simp at h

theorem map_fst_joinTail (r : DF) (lcols : List String) (k : List Cell)
    (hr : ∀ rr ∈ r.rows, rr.map Prod.fst = r.cols) :
    (joinTail r lcols k).map Prod.fst = r.cols.map (renameR lcols) := by
  unfold joinTail
  cases hm : rightMatches r k with
  | nil =>
    rw [List.map_map]
    rfl
  | cons rr rest =>
    rw [List.map_map]
    have hkeys : rr.map Prod.fst = r.cols :=
      hr rr (mem_rightMatches r k rr (by rw [hm]; exact List.mem_cons_self rr rest))
    calc rr.map (Prod.fst ∘ fun q => (renameR lcols q.1, q.2))
        = rr.map (fun q => renameR lcols q.1) := rfl
      _ = (rr.map Prod.fst).map (renameR lcols) := by rw [List.map_map]; rfl
      _ = r.cols.map (renameR lcols) := by rw [hkeys]

theorem flatMap_singleton_eq_map {α β : Type} (l : List α) (f : α → List β) (g : α → β)
    (h : ∀ p ∈ l, f p = [g p]) : l.flatMap f = l.map g := by
  induction l with
  | nil => simp
  | cons a l ih =>
    rw [List.flatMap_cons, h a (List.mem_cons_self a l), List.map_cons,
      ih (fun p hp => h p (List.mem_cons_of_mem a hp))]
    rfl

theorem joinPairs_eq_map (l r : DF) (hr : r.idx.Nodup) :
    joinPairs l r = (l.idx.zip l.rows).map
      (fun p => (p.1, p.2 ++ joinTail r l.cols p.1)) := by
  unfold joinPairs
  apply flatMap_singleton_eq_map
  intro p hp
  cases hm : rightMatches r p.1 with
  | nil => rw [joinTail, hm]
  | cons rr rest =>
    have hlen := rightMatches_le_one r hr p.1
    rw [hm] at hlen
    have hrest : rest = [] := by
      cases rest with
      | nil => rfl
      | cons x xs => simp at hlen
    subst hrest
    rw [joinTail, hm]
    rfl

theorem joinDF_idx (l r : DF) (hal : l.idx.length = l.rows.length)
    (hr : r.idx.Nodup) : (joinDF l r).idx = l.idx := by
  unfold joinDF
  rw [joinPairs_eq_map l r hr, List.map_map]
  have : ((fun p : List Cell × Row => p.1) ∘
      fun p : List Cell × Row => (p.1, p.2 ++ joinTail r l.cols p.1))
      = fun p : List Cell × Row => p.1 := rfl
  rw [this]
  exact List.map_fst_zip l.idx l.rows (le_of_eq hal)

theorem joinDF_rows (l r : DF) (hr : r.idx.Nodup) :
    (joinDF l r).rows = (l.idx.zip l.rows).map
      (fun p => p.2 ++ joinTail r l.cols p.1) := by
  show (joinPairs l r).map (fun p => p.2) = _
  rw [joinPairs_eq_map l r hr, List.map_map]
  rfl

theorem joinDF_rows_length (l r : DF) (hal : l.idx.length = l.rows.length)
    (hr : r.idx.Nodup) : (joinDF l r).rows.length = l.rows.length := by
  rw [joinDF_rows l r hr, List.length_map, List.length_zip, hal, Nat.min_self]

theorem joinDF_aligned (l r : DF) :
    (joinDF l r).idx.length = (joinDF l r).rows.length := by
  unfold joinDF
  simp

theorem WF_joinDF (l r : DF) (hl : l.WF) (hr : r.WF) : (joinDF l r).WF := by
  obtain ⟨l1, l2, l3⟩ := hl
  obtain ⟨r1, r2, r3⟩ := hr
  refine ⟨joinDF_aligned l r, ?_, ?_⟩
  · intro row hrow
    unfold joinDF at hrow ⊢
    simp only [List.mem_map] at hrow
    obtain ⟨p, hp, rfl⟩ := hrow
    unfold joinPairs at hp
    simp only [List.mem_flatMap] at hp
    obtain ⟨q, hq, hpq⟩ := hp
    have hq2 : q.2 ∈ l.rows := (List.of_mem_zip hq).2
    have hkeys2 : q.2.map Prod.fst = l.cols := l2 q.2 hq2
    cases hm : rightMatches r q.1 with
    | nil =>
      rw [hm] at hpq
      simp only [List.mem_singleton] at hpq
      subst hpq
      simp only [List.map_append, hkeys2, List.map_map]
      rfl
    | cons rr rest =>
      rw [hm] at hpq
      simp only [List.mem_map] at hpq
      obtain ⟨m, hmm, rfl⟩ := hpq
      have hmrow : m ∈ r.rows :=
        mem_rightMatches r q.1 m (by rw [hm]; exact hmm)
      have hmkeys : m.map Prod.fst = r.cols := r2 m hmrow
      simp only [List.map_append, hkeys2, List.map_map]
      have : m.map (Prod.fst ∘ fun q => (renameR l.cols q.1, q.2))
          = (m.map Prod.fst).map (renameR l.cols) := by
        rw [List.map_map]; rfl
      rw [this, hmkeys]
  · intro k hk
    unfold joinDF at hk
    simp only [List.mem_map] at hk
    obtain ⟨p, hp, rfl⟩ := hk
    unfold joinPairs at hp
    simp only [List.mem_flatMap] at hp
    obtain ⟨q, hq, hpq⟩ := hp
    have hq1 : q.1 ∈ l.idx := (List.of_mem_zip hq).1
    have hfst : p.1 = q.1 := by
      cases hm : rightMatches r q.1 with
      | nil =>
        rw [hm] at hpq
        simp only [List.mem_singleton] at hpq
        rw [hpq]
      | cons rr rest =>
        rw [hm] at hpq
        simp only [List.mem_map] at hpq
        obtain ⟨m, -, rfl⟩ := hpq
        rfl
    show p.1.length = (joinDF l r).idxNames.length
    rw [hfst]
    exact l3 q.1 hq1

/-! Well-formedness preservation. -/

theorem map_fst_map_preserve (r : Row) (f : String × Cell → String × Cell)
    (hf : ∀ p, (f p).1 = p.1) : (r.map f).map Prod.fst = r.map Prod.fst := by
  induction r with
  | nil => rfl
  | cons p r ih => simp [hf, ih]

theorem map_fst_graph (cs : List String) (g : String → Cell) :
    (cs.map (fun c => (c, g c))).map Prod.fst = cs := by
  induction cs with
  | nil => rfl
  | cons c cs ih => simpa using ih

theorem WF_selectCols (df : DF) (cs : List String) (out : DF)
    (hwf : df.WF) (h : selectCols df cs = some out) : out.WF := by
  obtain ⟨heq, -⟩ := selectCols_spec df cs out h
  subst heq
  obtain ⟨h1, h2, h3⟩ := hwf
  refine ⟨by simpa using h1, ?_, by simpa using h3⟩
  intro r hr
  simp only [List.mem_map] at hr
  obtain ⟨r0, -, rfl⟩ := hr
  exact map_fst_selectRow r0 cs

theorem WF_filterItems (df : DF) (cs : List String)
    (hwf : df.WF) : (filterItems df cs).WF := by
  obtain ⟨h1, h2, h3⟩ := hwf
  refine ⟨by simpa [filterItems] using h1, ?_, by simpa [filterItems] using h3⟩
  intro r hr
  simp only [filterItems, List.mem_map] at hr
  obtain ⟨r0, -, rfl⟩ := hr
  exact map_fst_selectRow r0 _

theorem WF_setIndexMany (df : DF) (names : List String) (out : DF)
    (hwf : df.WF) (h : setIndexMany df names = some out) : out.WF := by
  obtain ⟨heq, -⟩ := setIndexMany_spec df names out h
  subst heq
  obtain ⟨h1, h2, h3⟩ := hwf
  refine ⟨by simp, ?_, ?_⟩
  · intro r hr
    simp only [List.mem_map] at hr
    obtain ⟨r0, hr0, rfl⟩ := hr
    show (r0.filter (fun p => ¬ p.1 ∈ names)).map Prod.fst = _
    rw [map_fst_filter_keys (fun s => ¬ s ∈ names) r0, h2 r0 hr0]
  · intro k hk
    simp only [List.mem_map] at hk
    obtain ⟨r0, -, rfl⟩ := hk
    simp

theorem WF_resetIndexOpt (df : DF) (out : DF)
    (hwf : df.WF) (h : resetIndexOpt df = some out) : out.WF := by
  obtain ⟨heq, -⟩ := resetIndexOpt_spec df out h
  subst heq
  obtain ⟨h1, h2, h3⟩ := hwf
  refine ⟨by simp, ?_, ?_⟩
  · intro r hr
    simp only [List.mem_map] at hr
    obtain ⟨p, hp, rfl⟩ := hr
    obtain ⟨hp1, hp2⟩ := List.of_mem_zip hp
    show ((df.idxNames.zip p.1) ++ p.2).map Prod.fst = df.idxNames ++ df.cols
    rw [List.map_append, h2 p.2 hp2,
      List.map_fst_zip df.idxNames p.1 (le_of_eq (h3 p.1 hp1).symm)]
  · intro k hk
    simp only [List.mem_map] at hk
    obtain ⟨p, -, rfl⟩ := hk
    rfl

theorem WF_fillnaFromCol (df : DF) (target src : String) (out : DF)
    (hwf : df.WF) (h : fillnaFromCol df target src = some out) : out.WF := by
  obtain ⟨heq, -, -⟩ := fillnaFromCol_spec df target src out h
  subst heq
  obtain ⟨h1, h2, h3⟩ := hwf
  refine ⟨by simpa using h1, ?_, by simpa using h3⟩
  intro r hr
  simp only [List.mem_map] at hr
  obtain ⟨r0, hr0, rfl⟩ := hr
  rw [map_fst_map_preserve r0 _ (fun p => by
    by_cases hp : p.1 = target <;> simp [hp])]
  exact h2 r0 hr0

theorem WF_dropCol (df : DF) (c : String) (out : DF)
    (hwf : df.WF) (h : dropCol df c = some out) : out.WF := by
  obtain ⟨heq, -⟩ := dropCol_spec df c out h
  subst heq
  obtain ⟨h1, h2, h3⟩ := hwf
  refine ⟨by simpa using h1, ?_, by simpa using h3⟩
  intro r hr
  simp only [List.mem_map] at hr
  obtain ⟨r0, hr0, rfl⟩ := hr
  show (r0.filter (fun p => ¬ p.1 = c)).map Prod.fst = _
  rw [map_fst_filter_keys (fun s => ¬ s = c) r0, h2 r0 hr0]

theorem groupbyAgg_facts (df : DF) (key : String) (vcols : List String)
    (red : List Cell → Cell) (out : DF)
    (h : groupbyAgg df key vcols red = some out) :
    out.WF ∧ out.idx.Nodup ∧ out.idxNames = [key] ∧ out.cols = vcols ∧
    (∀ k ∈ out.idx, ∃ v, k = [some v]) := by
  obtain ⟨kc, -, heq⟩ := groupbyAgg_spec df key vcols red out h
  subst heq
  refine ⟨⟨by simp, ?_, ?_⟩, ?_, rfl, rfl, ?_⟩
  · intro r hr
    simp only [List.mem_map] at hr
    obtain ⟨v, -, rfl⟩ := hr
    exact map_fst_graph vcols _
  · intro k hk
    simp only [List.mem_map] at hk
    obtain ⟨v, -, rfl⟩ := hk
    rfl
  · show (List.map (fun v => [some v]) _).Nodup
    refine List.Nodup.map ?_ (nodup_uniqueFirst _)
    intro a b hab
    simpa using hab
  · intro k hk
    simp only [List.mem_map] at hk
    obtain ⟨v, -, rfl⟩ := hk
    exact ⟨v, rfl⟩

/-! Facts about the aggregation entry points. -/

theorem getCol_selectCols (data : DF) (cs : List String) (df : DF) (c : String)
    (h : selectCols data cs = some df) (hc : c ∈ cs) : getCol df c = getCol data c := by
  obtain ⟨heq, -⟩ := selectCols_spec data cs df h
  subst heq
  show (data.rows.map (fun r => selectRow r cs)).map (fun r => rowCell r c) = _
  rw [List.map_map]
  apply List.map_congr_left
  intro r hr
  show rowCell (selectRow r cs) c = rowCell r c
  rw [rowCell_selectRow, if_pos hc]

theorem get_annotations_base_groupby (data : DF) (index : String)
    (columns : List String) (red : List Cell → Cell) (out : DF)
    (h : (get_annotations_base data index columns red).1 = some out) :
    ∃ df2, groupbyAgg df2 index (popIndex index columns) red = some out := by
  unfold get_annotations_base at h
  split at h
  · obtain ⟨df, hsel, h2⟩ := Option.bind_eq_some.1 h
    obtain ⟨df2, hset, h3⟩ := Option.bind_eq_some.1 h2
    exact ⟨df2, h3⟩
  · simp at h

theorem get_annotations_base_facts (data : DF) (index : String)
    (columns : List String) (red : List Cell → Cell) (out : DF)
    (h : (get_annotations_base data index columns red).1 = some out) :
    out.WF ∧ out.idx.Nodup ∧ out.idxNames = [index] ∧
    out.cols = popIndex index columns ∧ (∀ k ∈ out.idx, ∃ v, k = [some v]) := by
  obtain ⟨df2, h2⟩ := get_annotations_base_groupby data index columns red out h
  exact groupbyAgg_facts df2 index (popIndex index columns) red out h2

theorem get_annotations_base_idx (data : DF) (index : String)
    (columns : List String) (red : List Cell → Cell) (out : DF)
    (hidx : ¬ data.idxNames = [index])
    (h : (get_annotations_base data index columns red).1 = some out) :
    out.idx = (uniqueFirst ((getCol data index).filterMap id)).map
      (fun v => [(some v : Cell)]) := by
  unfold get_annotations_base at h
  split at h
  · obtain ⟨df, hsel, h2⟩ := Option.bind_eq_some.1 h
    obtain ⟨df2, hset, h3⟩ := Option.bind_eq_some.1 h2
    obtain ⟨hdf2eq, -⟩ := setIndexMany_spec df [index] df2 hset
    obtain ⟨kc, hkc, houteq⟩ := groupbyAgg_spec df2 index _ red out h3
    have hkc2 : kc = getCol data index := by
      unfold keyCellsOf at hkc
      rw [hdf2eq] at hkc
      rw [if_pos rfl] at hkc
      have := Option.some_inj.1 hkc
      rw [← this, List.map_map]
      rw [← getCol_selectCols data (popIndex index columns ++ [index]) df index hsel
        (List.mem_append_right _ (List.mem_singleton_self index))]
      show getCol df index = _
      unfold getCol
      apply List.map_congr_left
      intro r hr
      rfl
    rw [houteq, hkc2]
  · simp at h

/-- C1: for every table, key column and aggregation meeting the
preconditions (the requested columns and the key exist, and the key is
not already the table's index name, as guaranteed by the constructor's
`reset_index`), the table returned by `Dataset.get_annotations`
(`base.py`) has an index with no duplicate values, and its number of
rows equals the number of distinct non-null values of the key column in
the input table (missing keys are dropped). -/
theorem C1_aggregate_unique_index (data : DF) (index : String)
    (columns : List String) (red : List Cell → Cell) (out : DF)
    (hidx : ¬ data.idxNames = [index])
    (h : (get_annotations_base data index columns red).1 = some out) :
    out.idx.Nodup ∧
    out.rows.length = ((getCol data index).filterMap id).toFinset.card := by
  have hf := get_annotations_base_facts data index columns red out h
  refine ⟨hf.2.1, ?_⟩
  rw [← hf.1.1, get_annotations_base_idx data index columns red out hidx h,
    List.length_map, length_uniqueFirst]

/-- Witness for C1 at a concrete three row table whose key column holds
two distinct values, one of them repeated. -/
theorem C1_aggregate_unique_index_witness :
    (¬ W1data.idxNames = ["gene_id"]) ∧
    ((get_annotations_base W1data "gene_id" ["go"] concat_uniques).1 = some W1out) ∧
    (W1out.idx.Nodup ∧
      W1out.rows.length = ((getCol W1data "gene_id").filterMap id).toFinset.card) :=
  ⟨by decide, by decide, C1_aggregate_unique_index W1data "gene_id" ["go"]
    concat_uniques W1out (by decide) (by decide)⟩

/-- C5: the concat reducer collapses a group's values to their unique
string representations in first-appearance order joined with the
separator `|`: in general `uniqueFirst` keeps exactly the first
occurrences (no duplicates, same members, a sublist of the input), and
on the group values `["a","b","a","c"]` both the `RNAcentral.load_data`
lambda and the spec-modelled `concat_uniques` reducer yield `"a|b|c"`,
which is also the cell the full `get_annotations` aggregation writes
for a four row group carrying those values. -/
theorem C5_concat_reducer :
    (∀ l : List Val, (uniqueFirst l).Nodup ∧ (∀ v, v ∈ uniqueFirst l ↔ v ∈ l) ∧
      List.Sublist (uniqueFirst l) l) ∧
    rnacentral_join_uniques ["a", "b", "a", "c"] = "a|b|c" ∧
    concat_uniques [some "a", some "b", some "a", some "c"] = some "a|b|c" ∧
    (get_annotations_base W5data "k" ["x"] concat_uniques).1 = some W5out :=
  ⟨fun l => ⟨nodup_uniqueFirst l, fun v => mem_uniqueFirst v l, uniqueFirst_sublist l⟩,
    by decide, by decide, by decide⟩

/-- C10: `Dataset.get_annotations` mutates the caller's `columns` list
in place (modelled by the second component of the result): when the key
is an element of the list — and, in `base.py`, the subset precondition
holds, so that the raise before the pop is not taken — the first
occurrence of the key is removed and the list is one element shorter;
when the key is not in the list it is returned unchanged, in both
`base.py` and `annotation.py`. -/
theorem C10_columns_pop (data dataA : DF) (index : String) (columns : List String)
    (red : List Cell → Cell)
    (hsub : ∀ c ∈ columns, c ∈ data.cols) (hmem : index ∈ columns) :
    (get_annotations_base data index columns red).2 = columns.erase index ∧
    ((get_annotations_base data index columns red).2).length + 1 = columns.length ∧
    (get_annotations_ann dataA index columns).2 = columns.erase index ∧
    (∀ cols2 : List String, ¬ index ∈ cols2 →
      (get_annotations_base data index cols2 red).2 = cols2 ∧
      (get_annotations_ann dataA index cols2).2 = cols2) := by
  have hpop : popIndex index columns = columns.erase index := by
    unfold popIndex
    rw [if_pos hmem]
  have hbase : (get_annotations_base data index columns red).2 = columns.erase index := by
    unfold get_annotations_base
    rw [if_pos hsub]
    exact hpop
  refine ⟨hbase, ?_, ?_, ?_⟩
  · rw [hbase, List.length_erase_of_mem hmem]
    have : 0 < columns.length := List.length_pos.2 (List.ne_nil_of_mem hmem)
    omega
  · show popIndex index columns = columns.erase index
    exact hpop
  · intro cols2 hno
    have hpop2 : popIndex index cols2 = cols2 := by
      unfold popIndex
      rw [if_neg hno]
    constructor
    · unfold get_annotations_base
      split
      · exact hpop2
      · rfl
    · exact hpop2

/-- Witness for C10 at a concrete table and column list containing the
key. -/
theorem C10_columns_pop_witness :
    (∀ c ∈ ["go", "gene_id"], c ∈ W1data.cols) ∧ "gene_id" ∈ ["go", "gene_id"] ∧
    ((get_annotations_base W1data "gene_id" ["go", "gene_id"] concat_uniques).2
        = ["go", "gene_id"].erase "gene_id" ∧
      ((get_annotations_base W1data "gene_id" ["go", "gene_id"] concat_uniques).2).length + 1
        = (["go", "gene_id"] : List String).length ∧
      (get_annotations_ann W1data "gene_id" ["go", "gene_id"]).2
        = ["go", "gene_id"].erase "gene_id" ∧
      (∀ cols2 : List String, ¬ "gene_id" ∈ cols2 →
        (get_annotations_base W1data "gene_id" cols2 concat_uniques).2 = cols2 ∧
        (get_annotations_ann W1data "gene_id" cols2).2 = cols2)) :=
  ⟨by decide, by decide,
    C10_columns_pop W1data W1data "gene_id" ["go", "gene_id"] concat_uniques
      (by decide) (by decide)⟩

/-- C8 counterexample: `annotate_genomics` is not atomic.  Joining on a
key that the annotations table does not carry (`"k2"`, present in the
resource) raises in `set_index` after `reset_index` has already been
assigned, so on exit the store is the reset frame, not its entry
state. -/
theorem C8_not_atomic_counterexample :
    annotate_genomics_base (fun _ _ => []) false X8data "k2" ["y"] concat_uniques X8ann
      = .error X8err ∧ ¬ X8err = X8ann :=
  ⟨by decide, by decide⟩

/-- C8 amended: only failures raised by `database.get_annotations`
(the first step, evaluated before any assignment to the store) are
guaranteed to leave the annotations in their pre-call state; a failure
in a later step can leave the store partially re-indexed, as the
counterexample shows. -/
theorem C8_error_before_first_assignment (matcher : Val → List (List Cell) → List Val)
    (fuzzy : Bool) (data : DF) (index : String) (columns : List String)
    (red : List Cell → Cell) (ann : DF)
    (h : (get_annotations_base data index columns red).1 = none) :
    annotate_genomics_base matcher fuzzy data index columns red ann = .error ann := by
  unfold annotate_genomics_base
  rw [h]

/-- Witness for the amended C8: a requested column that the resource
lacks makes `get_annotations` raise, and the store is unchanged. -/
theorem C8_error_before_first_assignment_witness :
    ((get_annotations_base W1data "gene_id" ["zz"] concat_uniques).1 = none) ∧
    annotate_genomics_base (fun _ _ => []) false W1data "gene_id" ["zz"]
      concat_uniques X8ann = .error X8ann :=
  ⟨by decide, C8_error_before_first_assignment (fun _ _ => []) false W1data "gene_id"
    ["zz"] concat_uniques X8ann (by decide)⟩

/-! Option traversal helpers for the fuzzy rewrite. -/

theorem mapM_none_of_mem {α β : Type} (f : α → Option β) (l : List α) (a : α)
    (ha : a ∈ l) (hf : f a = none) : l.mapM f = none := by
  induction l with
  | nil => simp at ha
  | cons b l ih =>
    rw [List.mapM_cons]
    rcases List.mem_cons.1 ha with rfl | ha2
    · rw [hf]
      rfl
    · cases hb : f b with
      | none => rfl
      | some y =>
        show (some y >>= fun x => l.mapM f >>= fun xs => pure (x :: xs)) = none
        rw [ih ha2]
        rfl

theorem mapM_map_of_all_some {α β : Type} (f : α → Option β) (g : α → β)
    (l : List α) (h : ∀ a ∈ l, f a = some (g a)) : l.mapM f = some (l.map g) := by
  induction l with
  | nil => rfl
  | cons a l ih =>
    rw [List.mapM_cons, h a (List.mem_cons_self a l)]
    show (some (g a) >>= fun x => l.mapM f >>= fun xs => pure (x :: xs)) = _
    rw [ih (fun b hb => h b (List.mem_cons_of_mem a hb))]
    rfl

/-- C6 counterexample: with fuzzy matching requested and a resource key
for which the matcher offers no candidate, the claim says the join
completes without error and silently omits the row; instead the `[0]`
subscript on the empty candidate list raises `IndexError` and the call
fails (the store is left unchanged). -/
theorem C6_fuzzy_no_match_counterexample :
    annotate_genomics_base (fun _ _ => []) true X6data "gene_id" ["go"]
      concat_uniques X6ann = .error X6ann ∧
    exIsOk (annotate_genomics_base (fun _ _ => []) true X6data "gene_id" ["go"]
      concat_uniques X6ann) = false :=
  ⟨by decide, by decide⟩

/-- C6 amended: with fuzzy matching requested, every aggregated index
value is rewritten to the single first (best) candidate returned by the
external matcher; but an index value with no candidate makes the call
raise `IndexError` (state unchanged) instead of silently dropping that
resource row. -/
theorem C6_fuzzy_match_behavior (matcher : Val → List (List Cell) → List Val)
    (data : DF) (index : String) (columns : List String)
    (red : List Cell → Cell) (ann dbdf : DF)
    (hdb : (get_annotations_base data index columns red).1 = some dbdf) :
    (∀ v, [some v] ∈ dbdf.idx → matcher v ann.idx = [] →
      annotate_genomics_base matcher true data index columns red ann = .error ann) ∧
    ((∀ k ∈ dbdf.idx, ∃ v, k = [(some v : Cell)] ∧ ¬ matcher v ann.idx = []) →
      fuzzyRewrite matcher dbdf ann = some { dbdf with idx := dbdf.idx.map (fun k =>
        match k with
        | [some v] => [(some ((matcher v ann.idx).headD "") : Cell)]
        | _ => k) }) := by
  constructor
  · intro v hv hm
    have hfz : fuzzyRewrite matcher dbdf ann = none := by
      unfold fuzzyRewrite
      rw [mapM_none_of_mem _ dbdf.idx [some v] hv ?_]
      · rfl
      · show (matcher v ann.idx).head?.map (fun m => [(some m : Cell)]) = none
        rw [hm]
        rfl
    unfold annotate_genomics_base
    rw [hdb]
    show (match fuzzyRewrite matcher dbdf ann with
          | none => Except.error ann
          | some dbdf2 => joinStage true index ann dbdf2) = Except.error ann
    rw [hfz]
  · intro hall
    unfold fuzzyRewrite
    rw [mapM_map_of_all_some _ _ dbdf.idx ?_]
    · rfl
    · intro k hk
      obtain ⟨v, rfl, hne⟩ := hall k hk
      show (matcher v ann.idx).head?.map (fun m => [(some m : Cell)])
          = some [(some ((matcher v ann.idx).headD "") : Cell)]
      cases hcand : matcher v ann.idx with
      | nil => exact absurd hcand hne
      | cons m ms => rfl

/-- Witness for the amended C6, applying the error half with a matcher
that offers no candidates and the rewrite half with a constant
single-candidate matcher. -/
theorem C6_fuzzy_match_behavior_witness :
    ((get_annotations_base X6data "gene_id" ["go"] concat_uniques).1 = some X6db) ∧
    ([(some "G1a" : Cell)] ∈ X6db.idx) ∧
    (annotate_genomics_base (fun _ _ => []) true X6data "gene_id" ["go"]
      concat_uniques X6ann = .error X6ann) ∧
    (fuzzyRewrite (fun _ _ => ["G1"]) X6db X6ann
      = some { X6db with idx := [[some "G1"], [some "G1"]] }) := by
  have hdb : (get_annotations_base X6data "gene_id" ["go"] concat_uniques).1 = some X6db := by
    decide
  refine ⟨hdb, by decide, ?_, ?_⟩
  · exact (C6_fuzzy_match_behavior (fun _ _ => []) X6data "gene_id" ["go"] concat_uniques
      X6ann X6db hdb).1 "G1a" (by decide) rfl
  · have hall : ∀ k ∈ X6db.idx, ∃ v, k = [(some v : Cell)] ∧
        ¬ (fun (_ : Val) (_ : List (List Cell)) => (["G1"] : List Val)) v X6ann.idx = [] := by
      intro k hk
      rcases List.mem_cons.1 hk with rfl | hk2
      · exact ⟨"G1a", rfl, by simp⟩
      rcases List.mem_cons.1 hk2 with rfl | hk3
      · exact ⟨"G1b", rfl, by simp⟩
      · simp at hk3
    have := (C6_fuzzy_match_behavior (fun _ _ => ["G1"]) X6data "gene_id" ["go"]
      concat_uniques X6ann X6db hdb).2 hall
    rw [this]
    rfl

/-- C7 counterexample: duplicate index values in the table produced for
joining are not always rejected.  The fuzzy rewrite maps two aggregated
keys to the same store key, hands the join a table whose index is
duplicated, and the call completes without any error being raised.
(The post-aggregation uniqueness check of `base.py` is itself commented
out; the one in `annotation.py` runs before the rewrite.) -/
theorem C7_duplicates_tolerated_counterexample :
    ((get_annotations_base X7data "gene_id" ["go"] concat_uniques).1 = some X7db) ∧
    (fuzzyRewrite (fun _ _ => ["G1"]) X7db X7ann).map (fun d => d.idx)
      = some [[some "G1"], [some "G1"]] ∧
    ¬ ([[(some "G1" : Cell)], [some "G1"]] : List (List Cell)).Nodup ∧
    exIsOk (annotate_genomics_base (fun _ _ => ["G1"]) true X7data "gene_id" ["go"]
      concat_uniques X7ann) = true :=
  ⟨by decide, by decide, by decide, by decide⟩

/-- C7 amended: every table either aggregation entry point returns has
a duplicate free index by construction of the group-by
(`annotation.py` additionally re-checks and raises `ValueError`;
`base.py`'s check is commented out), but the fuzzy rewrite can
afterwards introduce duplicate index values into the table actually
joined, and those are silently tolerated. -/
theorem C7_aggregated_index_nodup (data : DF) (index : String)
    (columns : List String) (red : List Cell → Cell) (out : DF)
    (dataA : DF) (indexA : String) (columnsA : List String) (outA : DF) :
    ((get_annotations_base data index columns red).1 = some out → out.idx.Nodup) ∧
    ((get_annotations_ann dataA indexA columnsA).1 = some outA → outA.idx.Nodup) := by
  constructor
  · intro h
    exact (get_annotations_base_facts data index columns red out h).2.1
  · intro h
    unfold get_annotations_ann at h
    obtain ⟨df1, hset, h2⟩ := Option.bind_eq_some.1 h
    obtain ⟨out0, hgrp, h3⟩ := Option.bind_eq_some.1 h2
    split at h3
    · exact (Option.some_inj.1 h3) ▸ (by assumption)
    · simp at h3

/-- Witness for the amended C7 at concrete aggregations through both
entry points. -/
theorem C7_aggregated_index_nodup_witness :
    ((get_annotations_base W1data "gene_id" ["go"] concat_uniques).1 = some W1out) ∧
    ((get_annotations_ann W1data "gene_id" ["go"]).1 = some W1out) ∧
    W1out.idx.Nodup :=
  ⟨by decide, by decide,
    (C7_aggregated_index_nodup W1data "gene_id" ["go"] concat_uniques W1out
      W1data "gene_id" ["go"] W1out).1 (by decide)⟩

/-! Sequence dictionary lemmas. -/

theorem dictLookup_dictSet_self (d : SeqDict) (k : String) (v : SeqEntry) :
    dictLookup (dictSet d k v) k = some v := by
  induction d with
  | nil => simp [dictSet, dictLookup]
  | cons p d ih =>
    by_cases hp : p.1 = k
    · simp [dictSet, hp, dictLookup]
    · simp only [dictSet, if_neg hp, dictLookup, if_neg hp]
      exact ih

theorem dictLookup_dictSet_ne (d : SeqDict) (k k' : String) (v : SeqEntry)
    (h : ¬ k' = k) : dictLookup (dictSet d k v) k' = dictLookup d k' := by
  induction d with
  | nil =>
    show (if k = k' then some v else dictLookup [] k') = dictLookup [] k'
    rw [if_neg (fun he => h he.symm)]
  | cons p d ih =>
    by_cases hp : p.1 = k
    · simp only [dictSet, if_pos hp, dictLookup]
      rw [if_neg (fun he => h he.symm),
        if_neg (by rw [hp]; exact fun he => h he.symm)]
    · simp only [dictSet, if_neg hp, dictLookup]
      by_cases hpk : p.1 = k'
      · rw [if_pos hpk, if_pos hpk]
      · rw [if_neg hpk, if_neg hpk]
        exact ih

theorem dictLookup_update_self (policy : String) (d : SeqDict) (k s : String) :
    dictLookup (update_seq_dict policy d k s) k
      = some (seq_step policy (dictLookup d k) s) := by
  unfold update_seq_dict seq_step
  by_cases h1 : policy = "shortest"
  · rw [if_pos h1, if_pos h1]
    cases he : dictLookup d k with
    | none => exact dictLookup_dictSet_self d k _
    | some e0 =>
      show dictLookup (if e0.pyLen > s.length then dictSet d k (SeqEntry.str s) else d) k
          = some (if e0.pyLen > s.length then SeqEntry.str s else e0)
      by_cases hlt : e0.pyLen > s.length
      · rw [if_pos hlt, if_pos hlt]
        exact dictLookup_dictSet_self d k _
      · rw [if_neg hlt, if_neg hlt]
        exact he
  · rw [if_neg h1, if_neg h1]
    by_cases h2 : policy = "longest"
    · rw [if_pos h2, if_pos h2]
      cases he : dictLookup d k with
      | none => exact dictLookup_dictSet_self d k _
      | some e0 =>
        show dictLookup (if e0.pyLen < s.length then dictSet d k (SeqEntry.str s) else d) k
            = some (if e0.pyLen < s.length then SeqEntry.str s else e0)
        by_cases hlt : e0.pyLen < s.length
        · rw [if_pos hlt, if_pos hlt]
          exact dictLookup_dictSet_self d k _
        · rw [if_neg hlt, if_neg hlt]
          exact he
    · rw [if_neg h2, if_neg h2]
      by_cases h3 : policy = "all"
      · rw [if_pos h3, if_pos h3]
        cases he : dictLookup d k with
        | none => exact dictLookup_dictSet_self d k _
        | some e0 =>
          cases e0 with
          | str s0 => exact he
          | lst l => exact dictLookup_dictSet_self d k _
      · rw [if_neg h3, if_neg h3]
        exact dictLookup_dictSet_self d k _

theorem dictLookup_update_ne (policy : String) (d : SeqDict) (k s k' : String)
    (h : ¬ k' = k) :
    dictLookup (update_seq_dict policy d k s) k' = dictLookup d k' := by
  unfold update_seq_dict
  repeat' split
  all_goals first
    | exact dictLookup_dictSet_ne d k k' _ h
    | rfl

theorem dictLookup_foldl_upd (upd : SeqDict → String → String → SeqDict)
    (tr : Option SeqEntry → String → SeqEntry) (norm : String → String)
    (hself : ∀ d k s, dictLookup (upd d k s) k = some (tr (dictLookup d k) s))
    (hne : ∀ d k s k', ¬ k' = k → dictLookup (upd d k s) k' = dictLookup d k')
    (k : String) :
    ∀ (records : List (String × String)) (d : SeqDict),
      dictLookup (records.foldl (fun d p => upd d p.1 (norm p.2)) d) k
        = seq_fold_tr tr (dictLookup d k)
            ((records.filter (fun p => p.1 = k)).map (fun p => norm p.2)) := by
  intro records
  induction records with
  | nil => intro d; rfl
  | cons p records ih =>
    intro d
    rw [List.foldl_cons]
    by_cases hp : p.1 = k
    · rw [List.filter_cons_of_pos (by simpa using hp), List.map_cons]
      rw [ih (upd d p.1 (norm p.2))]
      have h2 : dictLookup (upd d p.1 (norm p.2)) k
          = some (tr (dictLookup d k) (norm p.2)) := by
        rw [hp]
        exact hself d k (norm p.2)
      rw [h2]
      rfl
    · rw [List.filter_cons_of_neg (by simpa using hp)]
      rw [ih (upd d p.1 (norm p.2))]
      rw [hne d p.1 (norm p.2) k (fun he => hp he.symm)]

/-! The selection policies over one group. -/

theorem isFirstMin_le (m : String) (l : List String) (h : isFirstMin m l) :
    ∀ y ∈ l, m.length ≤ y.length := by
  obtain ⟨pre, post, rfl, hpre, hpost⟩ := h
  intro y hy
  rcases List.mem_append.1 hy with hy | hy
  · exact le_of_lt (hpre y hy)
  · rcases List.mem_cons.1 hy with rfl | hy
    · exact le_rfl
    · exact hpost y hy

theorem isFirstMax_ge (m : String) (l : List String) (h : isFirstMax m l) :
    ∀ y ∈ l, y.length ≤ m.length := by
  obtain ⟨pre, post, rfl, hpre, hpost⟩ := h
  intro y hy
  rcases List.mem_append.1 hy with hy | hy
  · exact le_of_lt (hpre y hy)
  · rcases List.mem_cons.1 hy with rfl | hy
    · exact le_rfl
    · exact hpost y hy

theorem isFirstMin_cons_of_gt (m c : String) (l : List String)
    (h : isFirstMin m l) (hc : m.length < c.length) : isFirstMin m (c :: l) := by
  obtain ⟨pre, post, rfl, hpre, hpost⟩ := h
  refine ⟨c :: pre, post, rfl, ?_, hpost⟩
  intro y hy
  rcases List.mem_cons.1 hy with rfl | hy
  · exact hc
  · exact hpre y hy

theorem isFirstMax_cons_of_lt (m c : String) (l : List String)
    (h : isFirstMax m l) (hc : c.length < m.length) : isFirstMax m (c :: l) := by
  obtain ⟨pre, post, rfl, hpre, hpost⟩ := h
  refine ⟨c :: pre, post, rfl, ?_, hpost⟩
  intro y hy
  rcases List.mem_cons.1 hy with rfl | hy
  · exact hc
  · exact hpre y hy

theorem isFirstMin_insert_second (m c s : String) (l : List String)
    (h : isFirstMin m (c :: l)) (hcs : c.length ≤ s.length) :
    isFirstMin m (c :: s :: l) := by
  obtain ⟨pre, post, heq, hpre, hpost⟩ := h
  cases pre with
  | nil =>
    rw [List.nil_append] at heq
    obtain ⟨rfl, rfl⟩ := List.cons_eq_cons.1 heq
    refine ⟨[], s :: l, rfl, by simp, ?_⟩
    intro y hy
    rcases List.mem_cons.1 hy with rfl | hy
    · exact hcs
    · exact hpost y hy
  | cons a pre2 =>
    rw [List.cons_append] at heq
    obtain ⟨rfl, heq2⟩ := List.cons_eq_cons.1 heq
    have hcm : m.length < c.length := hpre c (List.mem_cons_self c pre2)
    refine ⟨c :: s :: pre2, post, by rw [heq2]; rfl, ?_, hpost⟩
    intro y hy
    rcases List.mem_cons.1 hy with rfl | hy
    · exact hcm
    rcases List.mem_cons.1 hy with rfl | hy
    · exact lt_of_lt_of_le hcm hcs
    · exact hpre y (List.mem_cons_of_mem c hy)

theorem isFirstMax_insert_second (m c s : String) (l : List String)
    (h : isFirstMax m (c :: l)) (hcs : s.length ≤ c.length) :
    isFirstMax m (c :: s :: l) := by
  obtain ⟨pre, post, heq, hpre, hpost⟩ := h
  cases pre with
  | nil =>
    rw [List.nil_append] at heq
    obtain ⟨rfl, rfl⟩ := List.cons_eq_cons.1 heq
    refine ⟨[], s :: l, rfl, by simp, ?_⟩
    intro y hy
    rcases List.mem_cons.1 hy with rfl | hy
    · exact hcs
    · exact hpost y hy
  | cons a pre2 =>
    rw [List.cons_append] at heq
    obtain ⟨rfl, heq2⟩ := List.cons_eq_cons.1 heq
    have hcm : c.length < m.length := hpre c (List.mem_cons_self c pre2)
    refine ⟨c :: s :: pre2, post, by rw [heq2]; rfl, ?_, hpost⟩
    intro y hy
    rcases List.mem_cons.1 hy with rfl | hy
    · exact hcm
    rcases List.mem_cons.1 hy with rfl | hy
    · exact lt_of_le_of_lt hcs hcm
    · exact hpre y (List.mem_cons_of_mem c hy)

theorem seq_step_shortest (c s : String) :
    seq_step "shortest" (some (.str c)) s
      = (if c.length > s.length then .str s else .str c) := by
  unfold seq_step
  rw [if_pos rfl]
  show (if (SeqEntry.str c).pyLen > s.length then SeqEntry.str s else SeqEntry.str c) = _
  rfl

theorem seq_step_longest (c s : String) :
    seq_step "longest" (some (.str c)) s
      = (if c.length < s.length then .str s else .str c) := by
  unfold seq_step
  rw [if_neg (by decide), if_pos rfl]
  show (if (SeqEntry.str c).pyLen < s.length then SeqEntry.str s else SeqEntry.str c) = _
  rfl

theorem seq_fold_shortest_go : ∀ (ss : List String) (c : String),
    ∃ m, seq_fold_tr (seq_step "shortest") (some (.str c)) ss = some (.str m) ∧
      isFirstMin m (c :: ss) := by
  intro ss
  induction ss with
  | nil =>
    intro c
    exact ⟨c, rfl, [], [], rfl, by simp, by simp⟩
  | cons s ss ih =>
    intro c
    show ∃ m, seq_fold_tr (seq_step "shortest")
        (some (seq_step "shortest" (some (.str c)) s)) ss = some (.str m) ∧ _
    rw [seq_step_shortest]
    by_cases hlt : c.length > s.length
    · rw [if_pos hlt]
      obtain ⟨m, hm, hfm⟩ := ih s
      refine ⟨m, hm, isFirstMin_cons_of_gt m c (s :: ss) hfm ?_⟩
      have hms : m.length ≤ s.length :=
        isFirstMin_le m (s :: ss) hfm s (List.mem_cons_self s ss)
      omega
    · rw [if_neg hlt]
      obtain ⟨m, hm, hfm⟩ := ih c
      exact ⟨m, hm, isFirstMin_insert_second m c s ss hfm (by omega)⟩

theorem seq_fold_longest_go : ∀ (ss : List String) (c : String),
    ∃ m, seq_fold_tr (seq_step "longest") (some (.str c)) ss = some (.str m) ∧
      isFirstMax m (c :: ss) := by
  intro ss
  induction ss with
  | nil =>
    intro c
    exact ⟨c, rfl, [], [], rfl, by simp, by simp⟩
  | cons s ss ih =>
    intro c
    show ∃ m, seq_fold_tr (seq_step "longest")
        (some (seq_step "longest" (some (.str c)) s)) ss = some (.str m) ∧ _
    rw [seq_step_longest]
    by_cases hlt : c.length < s.length
    · rw [if_pos hlt]
      obtain ⟨m, hm, hfm⟩ := ih s
      refine ⟨m, hm, isFirstMax_cons_of_lt m c (s :: ss) hfm ?_⟩
      have hms : s.length ≤ m.length :=
        isFirstMax_ge m (s :: ss) hfm s (List.mem_cons_self s ss)
      omega
    · rw [if_neg hlt]
      obtain ⟨m, hm, hfm⟩ := ih c
      exact ⟨m, hm, isFirstMax_insert_second m c s ss hfm (by omega)⟩

theorem seq_fold_tr_shortest (ss : List String) (h : ¬ ss = []) :
    ∃ m, seq_fold_tr (seq_step "shortest") none ss = some (.str m) ∧
      isFirstMin m ss := by
  cases ss with
  | nil => exact absurd rfl h
  | cons s ss =>
    show ∃ m, seq_fold_tr (seq_step "shortest")
        (some (seq_step "shortest" none s)) ss = some (.str m) ∧ _
    have hstep : seq_step "shortest" none s = .str s := by
      unfold seq_step
      rw [if_pos rfl]
    rw [hstep]
    exact seq_fold_shortest_go ss s

theorem seq_fold_tr_longest (ss : List String) (h : ¬ ss = []) :
    ∃ m, seq_fold_tr (seq_step "longest") none ss = some (.str m) ∧
      isFirstMax m ss := by
  cases ss with
  | nil => exact absurd rfl h
  | cons s ss =>
    show ∃ m, seq_fold_tr (seq_step "longest")
        (some (seq_step "longest" none s)) ss = some (.str m) ∧ _
    have hstep : seq_step "longest" none s = .str s := by
      unfold seq_step
      rw [if_neg (by decide), if_pos rfl]
    rw [hstep]
    exact seq_fold_longest_go ss s

theorem seq_fold_all_go : ∀ (ss l : List String),
    seq_fold_tr (seq_step "all") (some (.lst l)) ss = some (.lst (l ++ ss)) := by
  intro ss
  induction ss with
  | nil => intro l; simp [seq_fold_tr]
  | cons s ss ih =>
    intro l
    show seq_fold_tr (seq_step "all") (some (seq_step "all" (some (.lst l)) s)) ss = _
    have hstep : seq_step "all" (some (.lst l)) s = .lst (l ++ [s]) := by
      unfold seq_step
      rw [if_neg (by decide), if_neg (by decide), if_pos rfl]
    rw [hstep, ih (l ++ [s])]
    simp

theorem seq_fold_tr_all (ss : List String) :
    seq_fold_tr (seq_step "all") none ss
      = if ss = [] then none else some (.lst ss) := by
  cases ss with
  | nil => rfl
  | cons s ss =>
    rw [if_neg (by simp)]
    show seq_fold_tr (seq_step "all") (some (seq_step "all" none s)) ss = _
    have hstep : seq_step "all" none s = .lst [s] := by
      unfold seq_step
      rw [if_neg (by decide), if_neg (by decide), if_pos rfl]
    rw [hstep, seq_fold_all_go ss [s]]
    rfl

theorem seq_fold_tr_ov : ∀ (ss : List String) (e : Option SeqEntry),
    seq_fold_tr ov_step e ss
      = if ss = [] then e else ss.getLast?.map SeqEntry.str := by
  intro ss
  induction ss with
  | nil => intro e; rfl
  | cons s ss ih =>
    intro e
    rw [if_neg (by simp)]
    show seq_fold_tr ov_step (some (ov_step e s)) ss = _
    rw [ih (some (ov_step e s))]
    cases ss with
    | nil => rfl
    | cons s2 ss2 =>
      rw [if_neg (by simp), List.getLast?_cons_cons]

theorem mirbase_lookup (policy : String) (u2t : Bool)
    (records : List (String × String)) (k : String) :
    dictLookup (get_sequences_mirbase policy u2t records) k
      = seq_fold_tr (seq_step policy) none (group_seqs u2t k records) := by
  unfold get_sequences_mirbase group_seqs
  exact dictLookup_foldl_upd (update_seq_dict policy) (seq_step policy)
    (fun s => if u2t then replaceUT s else s)
    (fun d k0 s => dictLookup_update_self policy d k0 s)
    (fun d k0 s k' h => dictLookup_update_ne policy d k0 s k' h)
    k records []

theorem mapM_cons_some {α β : Type} (f : α → Option β) (a : α) (l : List α)
    (res : List β) (h : (a :: l).mapM f = some res) :
    ∃ x xs, f a = some x ∧ l.mapM f = some xs ∧ res = x :: xs := by
  rw [List.mapM_cons] at h
  cases hfa : f a with
  | none =>
    rw [hfa] at h
    exact absurd h (by simp [Option.bind])
  | some x =>
    rw [hfa] at h
    cases hml : l.mapM f with
    | none =>
      rw [show ((some x >>= fun x => l.mapM f >>= fun xs => pure (x :: xs)) : Option (List β))
          = (l.mapM f >>= fun xs => pure (x :: xs)) from rfl, hml] at h
      exact absurd h (by simp [Option.bind])
    | some xs =>
      rw [show ((some x >>= fun x => l.mapM f >>= fun xs => pure (x :: xs)) : Option (List β))
          = (l.mapM f >>= fun xs => pure (x :: xs)) from rfl, hml] at h
      exact ⟨x, xs, rfl, rfl, (Option.some_inj.1 h).symm⟩

theorem gencode_foldlM_eq (index policy : String) (u2t : Bool) :
    ∀ (records krecs : List (String × String)) (d : SeqDict),
      records.mapM (fun p => (gencode_key index p.1).map (fun k0 => (k0, p.2)))
        = some krecs →
      records.foldlM (fun d p => (gencode_key index p.1).map (fun k =>
          gencode_update index policy d k (if u2t then replaceUT p.2 else p.2))) d
        = some (krecs.foldl (fun d p => gencode_update index policy d p.1
            (if u2t then replaceUT p.2 else p.2)) d) := by
  intro records
  induction records with
  | nil =>
    intro krecs d hmap
    have : krecs = [] := by
      have : (some [] : Option (List (String × String))) = some krecs := hmap
      exact (Option.some_inj.1 this).symm
    subst this
    rfl
  | cons p records ih =>
    intro krecs d hmap
    obtain ⟨x, xs, hx, hxs, rfl⟩ := mapM_cons_some _ p records krecs hmap
    cases hkey : gencode_key index p.1 with
    | none =>
      rw [hkey] at hx
      simp at hx
    | some k0 =>
      rw [hkey] at hx
      have hxval : x = (k0, p.2) := by
        have hx2 : (some (k0, p.2) : Option (String × String)) = some x := hx
        exact (Option.some_inj.1 hx2).symm
      subst hxval
      rw [List.foldlM_cons, List.foldl_cons, hkey]
      show ((some (gencode_update index policy d k0 (if u2t then replaceUT p.2 else p.2))
          >>= fun d2 => records.foldlM _ d2) : Option SeqDict) = _
      show records.foldlM _ (gencode_update index policy d k0
          (if u2t then replaceUT p.2 else p.2)) = _
      exact ih xs (gencode_update index policy d k0 (if u2t then replaceUT p.2 else p.2)) hxs

theorem gencode_gene_eq_mirbase (index policy : String) (u2t : Bool)
    (records krecs : List (String × String))
    (hmap : records.mapM (fun p => (gencode_key index p.1).map
      (fun k0 => (k0, p.2))) = some krecs)
    (hgene : strContainsSub index "gene" = true) :
    get_sequences_gencode index policy u2t records
      = some (get_sequences_mirbase policy u2t krecs) := by
  unfold get_sequences_gencode get_sequences_mirbase
  rw [gencode_foldlM_eq index policy u2t records krecs [] hmap]
  have hfun : (fun (d : SeqDict) (p : String × String) =>
      gencode_update index policy d p.1 (if u2t then replaceUT p.2 else p.2))
    = (fun (d : SeqDict) (p : String × String) =>
      update_seq_dict policy d p.1 (if u2t then replaceUT p.2 else p.2)) := by
    funext d p
    unfold gencode_update
    rw [hgene]
    rfl
  rw [hfun]

theorem gencode_nongene_lookup (index policy : String) (u2t : Bool)
    (records krecs : List (String × String)) (k : String) (dres : SeqDict)
    (hmap : records.mapM (fun p => (gencode_key index p.1).map
      (fun k0 => (k0, p.2))) = some krecs)
    (hgene : strContainsSub index "gene" = false)
    (hres : get_sequences_gencode index policy u2t records = some dres) :
    dictLookup dres k
      = if group_seqs u2t k krecs = [] then none
        else (group_seqs u2t k krecs).getLast?.map SeqEntry.str := by
  unfold get_sequences_gencode at hres
  rw [gencode_foldlM_eq index policy u2t records krecs [] hmap] at hres
  have hfun : (fun (d : SeqDict) (p : String × String) =>
      gencode_update index policy d p.1 (if u2t then replaceUT p.2 else p.2))
    = (fun (d : SeqDict) (p : String × String) =>
      dictSet d p.1 (SeqEntry.str (if u2t then replaceUT p.2 else p.2))) := by
    funext d p
    unfold gencode_update
    rw [hgene]
    rfl
  rw [hfun] at hres
  have hdres := (Option.some_inj.1 hres).symm
  subst hdres
  have hlook := dictLookup_foldl_upd
    (fun d k0 s => dictSet d k0 (SeqEntry.str s)) ov_step
    (fun s => if u2t then replaceUT s else s)
    (fun d k0 s => dictLookup_dictSet_self d k0 (SeqEntry.str s))
    (fun d k0 s k' h => dictLookup_dictSet_ne d k0 k' (SeqEntry.str s) h)
    k krecs []
  rw [hlook, seq_fold_tr_ov]
  rfl

/-- C9 counterexample: `GENCODE.get_sequences` consults the selection
policy only when the identifier space name contains `"gene"`.  For the
`transcript_id` space under the `shortest` policy, two records with the
same transcript and sequences of lengths 3 and 5 leave the length-5
(last seen) sequence, which is not the first minimal-length one. -/
theorem C9_policy_ignored_counterexample :
    get_sequences_gencode "transcript_id" "shortest" false W9trecs
      = some [("T1", SeqEntry.str "AAAAA")] ∧
    ¬ isFirstMin "AAAAA" ["AAA", "AAAAA"] := by
  refine ⟨by decide, ?_⟩
  rintro ⟨pre, post, heq, hpre, -⟩
  cases pre with
  | nil =>
    rw [List.nil_append] at heq
    have := (List.cons_eq_cons.1 heq).1
    simp at this
  | cons a pre2 =>
    rw [List.cons_append] at heq
    obtain ⟨rfl, -⟩ := List.cons_eq_cons.1 heq
    have := hpre "AAA" (List.mem_cons_self "AAA" pre2)
    revert this
    decide

/-- C9 amended: the selection policy behaves as claimed in
`MirBase.get_sequences` for every identifier space (the source ignores
the `index` argument), and in `GENCODE.get_sequences` only when the
identifier space name contains `"gene"` (then it reduces to the MirBase
fold over the extracted keys); for the other identifier spaces
(`transcript_id`, `transcript_name`) every record overwrites the entry,
so each identifier keeps the last sequence seen.  Under the policy:
`shortest` keeps the first sequence of minimal length, `longest` the
first of maximal length, and `all` the ordered list of all sequences in
first-seen order. -/
theorem C9_selection_policies (u2t : Bool)
    (records krecs : List (String × String)) (k index policy : String) :
    (¬ group_seqs u2t k records = [] →
      ∃ m, dictLookup (get_sequences_mirbase "shortest" u2t records) k
          = some (.str m) ∧ isFirstMin m (group_seqs u2t k records)) ∧
    (¬ group_seqs u2t k records = [] →
      ∃ m, dictLookup (get_sequences_mirbase "longest" u2t records) k
          = some (.str m) ∧ isFirstMax m (group_seqs u2t k records)) ∧
    (dictLookup (get_sequences_mirbase "all" u2t records) k
      = if group_seqs u2t k records = [] then none
        else some (.lst (group_seqs u2t k records))) ∧
    (records.mapM (fun p => (gencode_key index p.1).map (fun k0 => (k0, p.2)))
        = some krecs →
      strContainsSub index "gene" = true →
      get_sequences_gencode index policy u2t records
        = some (get_sequences_mirbase policy u2t krecs)) ∧
    (records.mapM (fun p => (gencode_key index p.1).map (fun k0 => (k0, p.2)))
        = some krecs →
      strContainsSub index "gene" = false →
      ∀ dres, get_sequences_gencode index policy u2t records = some dres →
        dictLookup dres k = if group_seqs u2t k krecs = [] then none
          else (group_seqs u2t k krecs).getLast?.map SeqEntry.str) := by
  refine ⟨?_, ?_, ?_, ?_, ?_⟩
  · intro h
    rw [mirbase_lookup]
    exact seq_fold_tr_shortest _ h
  · intro h
    rw [mirbase_lookup]
    exact seq_fold_tr_longest _ h
  · rw [mirbase_lookup]
    exact seq_fold_tr_all _
  · exact fun hmap hgene =>
      gencode_gene_eq_mirbase index policy u2t records krecs hmap hgene
  · exact fun hmap hgene dres hres =>
      gencode_nongene_lookup index policy u2t records krecs k dres hmap hgene hres

/-- Witness for the amended C9 at concrete record streams: a MirBase
stream with three sequences for one identifier, a GENCODE stream keyed
by `gene_id`, and a GENCODE stream keyed by `transcript_id`. -/
theorem C9_selection_policies_witness :
    (¬ group_seqs false "m1" W9recs = []) ∧
    (∃ m, dictLookup (get_sequences_mirbase "shortest" false W9recs) "m1"
        = some (.str m) ∧ isFirstMin m (group_seqs false "m1" W9recs)) ∧
    (∃ m, dictLookup (get_sequences_mirbase "longest" false W9recs) "m1"
        = some (.str m) ∧ isFirstMax m (group_seqs false "m1" W9recs)) ∧
    (dictLookup (get_sequences_mirbase "all" false W9recs) "m1"
      = if group_seqs false "m1" W9recs = [] then none
        else some (.lst (group_seqs false "m1" W9recs))) ∧
    (get_sequences_gencode "gene_id" "shortest" false W9grecs
      = some (get_sequences_mirbase "shortest" false W9gkrecs)) ∧
    (∀ dres, get_sequences_gencode "transcript_id" "longest" false W9trecs
        = some dres →
      dictLookup dres "T1" = if group_seqs false "T1" W9tkrecs = [] then none
        else (group_seqs false "T1" W9tkrecs).getLast?.map SeqEntry.str) := by
  have h1 := C9_selection_policies false W9recs W9gkrecs "m1" "gene_id" "shortest"
  have h2 := C9_selection_policies false W9trecs W9tkrecs "T1" "transcript_id" "longest"
  have h3 := C9_selection_policies false W9grecs W9gkrecs "m1" "gene_id" "shortest"
  refine ⟨by decide, h1.1 (by decide), (h1.2.1) (by decide), h1.2.2.1, ?_, ?_⟩
  · exact h3.2.2.2.1 (by decide) (by decide)
  · exact h2.2.2.2.2 (by decide) (by decide)

/-! The join stage: success decomposition and shape preservation. -/

theorem mergeGo_ok_shape (doDrop : Bool) : ∀ (cs : List String) (st out : DF),
    mergeGo doDrop st cs = .ok out →
    out.rows.length = st.rows.length ∧ out.idx = st.idx ∧
      out.idxNames = st.idxNames := by
  intro cs
  induction cs with
  | nil =>
    intro st out h
    cases h
    exact ⟨rfl, rfl, rfl⟩
  | cons c cs ih =>
    intro st out h
    unfold mergeGo at h
    split at h
    · exact (Except.noConfusion h)
    · rename_i st1 hfill
      obtain ⟨heq1, -, -⟩ := fillnaFromCol_spec st (stripUnderscores c) c st1 hfill
      have hst1 : st1.rows.length = st.rows.length ∧ st1.idx = st.idx ∧
          st1.idxNames = st.idxNames := by
        rw [heq1]
        exact ⟨by simp, rfl, rfl⟩
      split at h
      · split at h
        · exact (Except.noConfusion h)
        · rename_i st2 hdrop
          obtain ⟨heq2, -⟩ := dropCol_spec st1 c st2 hdrop
          have hst2 : st2.rows.length = st1.rows.length ∧ st2.idx = st1.idx ∧
              st2.idxNames = st1.idxNames := by
            rw [heq2]
            exact ⟨by simp, rfl, rfl⟩
          obtain ⟨ha, hb, hc⟩ := ih st2 out h
          exact ⟨by rw [ha, hst2.1, hst1.1], by rw [hb, hst2.2.1, hst1.2.1],
            by rw [hc, hst2.2.2, hst1.2.2]⟩
      · obtain ⟨ha, hb, hc⟩ := ih st1 out h
        exact ⟨by rw [ha, hst1.1], by rw [hb, hst1.2.1], by rw [hc, hst1.2.2]⟩

theorem mergeLoop_ok_shape (doDrop : Bool) (st out : DF)
    (h : mergeLoop doDrop st = .ok out) :
    out.rows.length = st.rows.length ∧ out.idx = st.idx ∧
      out.idxNames = st.idxNames :=
  mergeGo_ok_shape doDrop _ st out h

theorem joinStage_pathA_ok (doDrop : Bool) (index : String) (ann db out : DF)
    (hA : ann.idxNames = [index])
    (h : joinStage doDrop index ann db = .ok out) :
    mergeLoop doDrop (joinDF ann db) = .ok out := by
  unfold joinStage at h
  rw [if_pos hA] at h
  exact h

theorem joinStage_pathB_ok (doDrop : Bool) (index : String) (ann db out : DF)
    (hB : ¬ ann.idxNames = [index])
    (h : joinStage doDrop index ann db = .ok out) :
    ∃ s1 s2 s4 s5, resetIndexOpt ann = some s1 ∧
      setIndexMany s1 [index] = some s2 ∧
      resetIndexOpt (joinDF s2 db) = some s4 ∧
      setIndexMany s4 ann.idxNames = some s5 ∧
      mergeLoop doDrop s5 = .ok out := by
  unfold joinStage at h
  rw [if_neg hB] at h
  split at h
  · exact (Except.noConfusion h)
  · rename_i s1 hr1
    split at h
    · exact (Except.noConfusion h)
    · rename_i s2 hr2
      split at h
      · exact (Except.noConfusion h)
      · rename_i s4 hr4
        split at h
        · exact (Except.noConfusion h)
        · rename_i s5 hr5
          exact ⟨s1, s2, s4, s5, hr1, hr2, hr4, hr5, h⟩

theorem joinStage_ok_rows (doDrop : Bool) (index : String) (ann db out : DF)
    (hal : ann.idx.length = ann.rows.length)
    (hdb : db.idx.Nodup)
    (h : joinStage doDrop index ann db = .ok out) :
    out.rows.length = ann.rows.length ∧ out.idx.length = out.rows.length := by
  by_cases hA : ann.idxNames = [index]
  · have hm := joinStage_pathA_ok doDrop index ann db out hA h
    obtain ⟨h1, h2, -⟩ := mergeLoop_ok_shape doDrop _ out hm
    constructor
    · rw [h1]
      exact joinDF_rows_length ann db hal hdb
    · rw [h1, h2]
      exact joinDF_aligned ann db
  · obtain ⟨s1, s2, s4, s5, hr1, hr2, hr4, hr5, hm⟩ :=
      joinStage_pathB_ok doDrop index ann db out hA h
    obtain ⟨heq1, -⟩ := resetIndexOpt_spec ann s1 hr1
    obtain ⟨heq2, -⟩ := setIndexMany_spec s1 [index] s2 hr2
    obtain ⟨heq4, -⟩ := resetIndexOpt_spec (joinDF s2 db) s4 hr4
    obtain ⟨heq5, -⟩ := setIndexMany_spec s4 ann.idxNames s5 hr5
    have hs1 : s1.rows.length = ann.rows.length := by
      rw [heq1]
      simp [List.length_zip, hal]
    have hs2len : s2.rows.length = s1.rows.length := by
      rw [heq2]
      simp
    have hs2al : s2.idx.length = s2.rows.length := by
      rw [heq2]
      simp
    have hjoin : (joinDF s2 db).rows.length = s2.rows.length :=
      joinDF_rows_length s2 db hs2al hdb
    have hjal : (joinDF s2 db).idx.length = (joinDF s2 db).rows.length :=
      joinDF_aligned s2 db
    have hs4 : s4.rows.length = (joinDF s2 db).rows.length := by
      rw [heq4]
      simp [List.length_zip, hjal]
    have hs5len : s5.rows.length = s4.rows.length := by
      rw [heq5]
      simp
    have hs5al : s5.idx.length = s5.rows.length := by
      rw [heq5]
      simp
    obtain ⟨h1, h2, -⟩ := mergeLoop_ok_shape doDrop s5 out hm
    constructor
    · rw [h1, hs5len, hs4, hjoin, hs2len, hs1]
    · rw [h1, h2, hs5al]

theorem annotate_base_ok_rows (matcher : Val → List (List Cell) → List Val)
    (data : DF) (index : String) (columns : List String)
    (red : List Cell → Cell) (ann out : DF)
    (hal : ann.idx.length = ann.rows.length)
    (h : annotate_genomics_base matcher false data index columns red ann = .ok out) :
    out.rows.length = ann.rows.length ∧ out.idx.length = out.rows.length := by
  unfold annotate_genomics_base at h
  cases hdb : (get_annotations_base data index columns red).1 with
  | none =>
    rw [hdb] at h
    exact (Except.noConfusion h)
  | some dbdf =>
    rw [hdb] at h
    replace h : joinStage true index ann dbdf = .ok out := h
    have hnd : dbdf.idx.Nodup :=
      (get_annotations_base_facts data index columns red dbdf hdb).2.1
    exact joinStage_ok_rows true index ann dbdf out hal hnd h

theorem applySteps_ok_rows : ∀ (steps : List JoinSpec) (ann out : DF),
    ann.idx.length = ann.rows.length →
    applySteps steps ann = .ok out →
    out.rows.length = ann.rows.length := by
  intro steps
  induction steps with
  | nil =>
    intro ann out hal h
    cases h
    rfl
  | cons s steps ih =>
    intro ann out hal h
    unfold applySteps at h
    split at h
    · exact (Except.noConfusion h)
    · rename_i st hst
      obtain ⟨h1, h2⟩ := annotate_base_ok_rows (fun _ _ => []) s.data s.index s.columns
        s.red ann st hal hst
      rw [ih st out h2 h, h1]

/-- C2 counterexample: with `fuzzy_match` requested (a join whose
preconditions all hold), a store initialized with one identifier ends
the join with two rows: the matcher maps two resource keys onto the same
store key, and the left join multiplies the row. -/
theorem C2_rowcount_counterexample :
    X6ann.rows.length = 1 ∧
    exIsOk (annotate_genomics_base (fun _ _ => ["G1"]) true X6data "gene_id" ["go"]
      concat_uniques X6ann) = true ∧
    (exState (annotate_genomics_base (fun _ _ => ["G1"]) true X6data "gene_id" ["go"]
      concat_uniques X6ann)).rows.length = 2 :=
  ⟨rfl, by decide, by decide⟩

/-- C2 amended: for a store initialized with N identifiers, any finite
sequence of successful non-fuzzy `annotate_genomics` joins leaves the
annotations with exactly N rows; with `fuzzy_match` the row count can
grow, as the counterexample shows. -/
theorem C2_rowcount_invariant (steps : List JoinSpec) (geneList : List Val)
    (index0 : String) (out : DF)
    (h : applySteps steps (initialize_annots geneList index0) = .ok out) :
    out.rows.length = geneList.length := by
  have hal : (initialize_annots geneList index0).idx.length
      = (initialize_annots geneList index0).rows.length := by
    simp [initialize_annots]
  rw [applySteps_ok_rows steps (initialize_annots geneList index0) out hal h]
  simp [initialize_annots]

/-- Witness for the amended C2: a three identifier store joined once
against a concrete resource still has three rows. -/
theorem C2_rowcount_invariant_witness :
    applySteps [⟨W1data, "gene_id", ["go"], concat_uniques⟩]
      (initialize_annots ["G1", "G2", "G3"] "gene_id") = .ok WC2out ∧
    WC2out.rows.length = 3 :=
  ⟨by decide, C2_rowcount_invariant [⟨W1data, "gene_id", ["go"], concat_uniques⟩]
    ["G1", "G2", "G3"] "gene_id" WC2out (by decide)⟩

/-! Index reconstruction through the path that re-keys the store. -/

theorem map_rowCell_zip_self : ∀ (names : List String) (k : List Cell),
    names.Nodup → k.length = names.length →
    names.map (fun n => rowCell (names.zip k) n) = k := by
  intro names
  induction names with
  | nil =>
    intro k _ hlen
    cases k with
    | nil => rfl
    | cons c k2 => simp at hlen
  | cons n ns ih =>
    intro k hnd hlen
    cases k with
    | nil => simp at hlen
    | cons c k2 =>
      rw [List.zip_cons_cons, List.map_cons]
      have hhead : rowCell ((n, c) :: ns.zip k2) n = c := by
        show (if n = n then c else rowCell (ns.zip k2) n) = c
        rw [if_pos rfl]
      rw [hhead]
      have htail : ns.map (fun x => rowCell ((n, c) :: ns.zip k2) x)
          = ns.map (fun x => rowCell (ns.zip k2) x) := by
        apply List.map_congr_left
        intro x hx
        have hnx : ¬ n = x := by
          intro he
          exact (List.nodup_cons.1 hnd).1 (he ▸ hx)
        show (if n = x then c else rowCell (ns.zip k2) x) = _
        rw [if_neg hnx]
      rw [htail, ih k2 (List.nodup_cons.1 hnd).2 (by simpa using hlen)]

theorem pathB_restore_core (doDrop : Bool) (index : String)
    (ann db out s1 s2 s4 s5 : DF)
    (hal : ann.idx.length = ann.rows.length)
    (hwidth : ∀ k ∈ ann.idx, k.length = ann.idxNames.length)
    (hnd : ann.idxNames.Nodup)
    (hdb : db.idx.Nodup)
    (hr1 : resetIndexOpt ann = some s1)
    (hr2 : setIndexMany s1 [index] = some s2)
    (hr4 : resetIndexOpt (joinDF s2 db) = some s4)
    (hr5 : setIndexMany s4 ann.idxNames = some s5)
    (hm : mergeLoop doDrop s5 = .ok out) :
    out.idxNames = ann.idxNames ∧ out.idx = ann.idx := by
  obtain ⟨heq1, -⟩ := resetIndexOpt_spec ann s1 hr1
  obtain ⟨heq2, -⟩ := setIndexMany_spec s1 [index] s2 hr2
  obtain ⟨heq4, -⟩ := resetIndexOpt_spec (joinDF s2 db) s4 hr4
  obtain ⟨heq5, -⟩ := setIndexMany_spec s4 ann.idxNames s5 hr5
  obtain ⟨-, hidxEq, hnamesEq⟩ := mergeLoop_ok_shape doDrop s5 out hm
  have hout1 : out.idxNames = ann.idxNames := by
    rw [hnamesEq, heq5]
  refine ⟨hout1, ?_⟩
  rw [hidxEq]
  have e1 : s5.idx = s4.rows.map (fun r => ann.idxNames.map (fun c => rowCell r c)) := by
    rw [heq5]
  have hs2al : s2.idx.length = s2.rows.length := by
    rw [heq2]
    simp
  have e5 : (joinDF s2 db).idx = s2.idx := joinDF_idx s2 db hs2al hdb
  have e6 : (joinDF s2 db).rows = (s2.idx.zip s2.rows).map
      (fun p => p.2 ++ joinTail db s2.cols p.1) := joinDF_rows s2 db hdb
  have e7 : s2.idx = s1.rows.map (fun r => [index].map (fun c => rowCell r c)) := by
    rw [heq2]
  have e8 : s2.rows = s1.rows.map (fun r => r.filter (fun q => ¬ q.1 ∈ [index])) := by
    rw [heq2]
  have e2 : s4.rows = ((joinDF s2 db).idx.zip (joinDF s2 db).rows).map
      (fun p => (((joinDF s2 db).idxNames).zip p.1) ++ p.2) := by
    rw [heq4]
  have e3 : (joinDF s2 db).idxNames = [index] := by
    show s2.idxNames = [index]
    rw [heq2]
  have e9 : s1.rows = (ann.idx.zip ann.rows).map
      (fun p => ann.idxNames.zip p.1 ++ p.2) := by
    rw [heq1]
  have hz1 : s2.idx.zip s2.rows = s1.rows.map
      (fun r => ([index].map (fun c => rowCell r c),
        r.filter (fun q => ¬ q.1 ∈ [index]))) := by
    rw [e7, e8, List.zip_map']
  have hjr : (joinDF s2 db).rows = s1.rows.map
      (fun r => r.filter (fun q => ¬ q.1 ∈ [index]) ++
        joinTail db s2.cols ([index].map (fun c => rowCell r c))) := by
    rw [e6, hz1, List.map_map]
    rfl
  have hz2 : (joinDF s2 db).idx.zip (joinDF s2 db).rows = s1.rows.map
      (fun r => ([index].map (fun c => rowCell r c),
        r.filter (fun q => ¬ q.1 ∈ [index]) ++
          joinTail db s2.cols ([index].map (fun c => rowCell r c)))) := by
    rw [e5, e7, hjr, List.zip_map']
  have hs4 : s4.rows = (ann.idx.zip ann.rows).map (fun p =>
      [index].zip ([index].map (fun c => rowCell (ann.idxNames.zip p.1 ++ p.2) c)) ++
        ((ann.idxNames.zip p.1 ++ p.2).filter (fun q => ¬ q.1 ∈ [index]) ++
          joinTail db s2.cols
            ([index].map (fun c => rowCell (ann.idxNames.zip p.1 ++ p.2) c)))) := by
    rw [e2, e3, hz2, e9, List.map_map, List.map_map]
    rfl
  rw [e1, hs4, List.map_map]
  refine Eq.trans (List.map_congr_left ?_)
    (List.map_fst_zip ann.idx ann.rows (le_of_eq hal))
  intro p hp
  show ann.idxNames.map (fun n => rowCell
      ([index].zip ([index].map (fun c => rowCell (ann.idxNames.zip p.1 ++ p.2) c)) ++
        ((ann.idxNames.zip p.1 ++ p.2).filter (fun q => ¬ q.1 ∈ [index]) ++
          joinTail db s2.cols
            ([index].map (fun c => rowCell (ann.idxNames.zip p.1 ++ p.2) c)))) n)
    = p.1
  have hk1 : p.1 ∈ ann.idx := (List.of_mem_zip hp).1
  have hklen : p.1.length = ann.idxNames.length := hwidth p.1 hk1
  have hzipkeys : (ann.idxNames.zip p.1).map Prod.fst = ann.idxNames :=
    List.map_fst_zip ann.idxNames p.1 (le_of_eq hklen.symm)
  have hstep : ∀ n ∈ ann.idxNames,
      rowCell
        ([index].zip ([index].map (fun c => rowCell (ann.idxNames.zip p.1 ++ p.2) c)) ++
          ((ann.idxNames.zip p.1 ++ p.2).filter (fun q => ¬ q.1 ∈ [index]) ++
            joinTail db s2.cols
              ([index].map (fun c => rowCell (ann.idxNames.zip p.1 ++ p.2) c)))) n
      = rowCell (ann.idxNames.zip p.1) n := by
    intro n hn
    by_cases hni : n = index
    · subst hni
      show (if n = n then rowCell (ann.idxNames.zip p.1 ++ p.2) n
            else rowCell ((ann.idxNames.zip p.1 ++ p.2).filter (fun q => ¬ q.1 ∈ [n]) ++
              joinTail db s2.cols
                ([n].map (fun c => rowCell (ann.idxNames.zip p.1 ++ p.2) c))) n)
          = rowCell (ann.idxNames.zip p.1) n
      rw [if_pos rfl]
      exact rowCell_append_left (ann.idxNames.zip p.1) p.2 n
        (by rw [hzipkeys]; exact hn)
    · show (if index = n then rowCell (ann.idxNames.zip p.1 ++ p.2) index
            else rowCell ((ann.idxNames.zip p.1 ++ p.2).filter (fun q => ¬ q.1 ∈ [index]) ++
              joinTail db s2.cols
                ([index].map (fun c => rowCell (ann.idxNames.zip p.1 ++ p.2) c))) n)
          = rowCell (ann.idxNames.zip p.1) n
      rw [if_neg (fun he => hni he.symm)]
      rw [List.filter_append, List.append_assoc]
      have hmem : n ∈ ((ann.idxNames.zip p.1).filter
          (fun q => ¬ q.1 ∈ [index])).map Prod.fst := by
        rw [map_fst_filter_keys (fun s => ¬ s ∈ [index]) (ann.idxNames.zip p.1),
          hzipkeys, List.mem_filter]
        exact ⟨hn, by simpa using hni⟩
      rw [rowCell_append_left _ _ n hmem]
      rw [rowCell_filter_keys (fun s => ¬ s ∈ [index]) (ann.idxNames.zip p.1) n]
      rw [if_pos (show (decide (¬ n ∈ [index])) = true by simpa using hni)]
  exact (List.map_congr_left hstep).trans
    (map_rowCell_zip_self ann.idxNames p.1 hnd hklen)

theorem joinStage_pathB_idx (doDrop : Bool) (index : String) (ann db out : DF)
    (hal : ann.idx.length = ann.rows.length)
    (hwidth : ∀ k ∈ ann.idx, k.length = ann.idxNames.length)
    (hnd : ann.idxNames.Nodup)
    (hdb : db.idx.Nodup)
    (hB : ¬ ann.idxNames = [index])
    (h : joinStage doDrop index ann db = .ok out) :
    out.idxNames = ann.idxNames ∧ out.idx = ann.idx := by
  obtain ⟨s1, s2, s4, s5, hr1, hr2, hr4, hr5, hm⟩ :=
    joinStage_pathB_ok doDrop index ann db out hB h
  exact pathB_restore_core doDrop index ann db out s1 s2 s4 s5 hal hwidth hnd hdb
    hr1 hr2 hr4 hr5 hm

theorem joinStageAnn_pathB_ok (index : String) (ann db out : DF) (n : String)
    (hsingle : ann.idxNames = [n])
    (hB : ¬ ann.idxNames = [index])
    (h : joinStageAnn index ann db = .ok out) :
    ∃ s1 s2 s4 s5, resetIndexOpt ann = some s1 ∧
      setIndexMany s1 [index] = some s2 ∧
      resetIndexOpt (joinDF s2 db) = some s4 ∧
      setIndexMany s4 ann.idxNames = some s5 ∧
      mergeLoop false s5 = .ok out := by
  unfold joinStageAnn at h
  rw [if_neg hB, hsingle] at h
  split at h
  · exact (Except.noConfusion h)
  · rename_i s1 hr1
    split at h
    · exact (Except.noConfusion h)
    · rename_i s2 hr2
      split at h
      · exact (Except.noConfusion h)
      · rename_i s4 hr4
        replace h : (match setIndexMany s4 [n] with
          | none => Except.error s4
          | some s5 => mergeLoop false s5) = .ok out := h
        split at h
        · exact (Except.noConfusion h)
        · rename_i s5 hr5
          exact ⟨s1, s2, s4, s5, hr1, hr2, hr4, by rw [hsingle]; exact hr5, h⟩

theorem joinStageAnn_not_ok_of_multi (index : String) (ann db out : DF)
    (hmulti : 1 < ann.idxNames.length) :
    ¬ joinStageAnn index ann db = .ok out := by
  intro h
  have hB : ¬ ann.idxNames = [index] := by
    intro he
    rw [he] at hmulti
    simp at hmulti
  unfold joinStageAnn at h
  rw [if_neg hB] at h
  split at h
  · exact (Except.noConfusion h)
  · rename_i s1 hr1
    split at h
    · exact (Except.noConfusion h)
    · rename_i s2 hr2
      split at h
      · exact (Except.noConfusion h)
      · rename_i s4 hr4
        split at h
        · rename_i n heq
          rw [heq] at hmulti
          simp at hmulti
        · exact (Except.noConfusion h)

theorem get_annotations_ann_nodup (data : DF) (index : String)
    (columns : List String) (out : DF)
    (h : (get_annotations_ann data index columns).1 = some out) :
    out.idx.Nodup := by
  unfold get_annotations_ann at h
  obtain ⟨df1, hset, h2⟩ := Option.bind_eq_some.1 h
  obtain ⟨out0, hgrp, h3⟩ := Option.bind_eq_some.1 h2
  split at h3
  · exact (Option.some_inj.1 h3) ▸ (by assumption)
  · simp at h3

/-- C4 counterexample: with `fuzzy_match` requested, a join keyed off
the current index brings the index names back but not the index values:
two resource keys rewritten onto the same store key multiply the store
row, and the restored index carries the duplicated tuple. -/
theorem C4_fuzzy_duplicates_counterexample :
    ¬ X4ann.idxNames = ["k"] ∧
    exIsOk (annotate_genomics_base (fun _ _ => ["K1"]) true X4data "k" ["x"]
      concat_uniques X4ann) = true ∧
    (exState (annotate_genomics_base (fun _ _ => ["K1"]) true X4data "k" ["x"]
      concat_uniques X4ann)).idxNames = X4ann.idxNames ∧
    ¬ (exState (annotate_genomics_base (fun _ _ => ["K1"]) true X4data "k" ["x"]
      concat_uniques X4ann)).idx = X4ann.idx :=
  ⟨by decide, by decide, by decide, by decide⟩

/-- C4 amended: a successful non-fuzzy `annotate_genomics` join keyed
off the current index restores the index exactly — same name list and
same tuple values — in `base.py` for any (possibly composite) index,
and in `annotation.py` for a single level index; on a composite-index
store `annotation.py` can never succeed, because the saved
`index.name` is `None` and the restoring `set_index` raises. -/
theorem C4_index_round_trip (matcher : Val → List (List Cell) → List Val)
    (data : DF) (index : String) (columns : List String)
    (red : List Cell → Cell) (ann outB outA : DF) (n : String)
    (hal : ann.idx.length = ann.rows.length)
    (hwidth : ∀ k ∈ ann.idx, k.length = ann.idxNames.length)
    (hnd : ann.idxNames.Nodup)
    (hB : ¬ ann.idxNames = [index]) :
    (annotate_genomics_base matcher false data index columns red ann = .ok outB →
      outB.idxNames = ann.idxNames ∧ outB.idx = ann.idx) ∧
    (ann.idxNames = [n] →
      annotate_genomics_ann data index columns ann = .ok outA →
      outA.idxNames = ann.idxNames ∧ outA.idx = ann.idx) ∧
    (1 < ann.idxNames.length →
      ¬ annotate_genomics_ann data index columns ann = .ok outA) := by
  refine ⟨?_, ?_, ?_⟩
  · intro h
    unfold annotate_genomics_base at h
    cases hdb : (get_annotations_base data index columns red).1 with
    | none =>
      rw [hdb] at h
      exact (Except.noConfusion h)
    | some dbdf =>
      rw [hdb] at h
      replace h : joinStage true index ann dbdf = .ok outB := h
      exact joinStage_pathB_idx true index ann dbdf outB hal hwidth hnd
        ((get_annotations_base_facts data index columns red dbdf hdb).2.1) hB h
  · intro hsingle h
    unfold annotate_genomics_ann at h
    cases hdb : (get_annotations_ann data index columns).1 with
    | none =>
      rw [hdb] at h
      exact (Except.noConfusion h)
    | some dbdf =>
      rw [hdb] at h
      replace h : joinStageAnn index ann dbdf = .ok outA := h
      obtain ⟨s1, s2, s4, s5, hr1, hr2, hr4, hr5, hm⟩ :=
        joinStageAnn_pathB_ok index ann dbdf outA n hsingle hB h
      exact pathB_restore_core false index ann dbdf outA s1 s2 s4 s5 hal hwidth hnd
        (get_annotations_ann_nodup data index columns dbdf hdb) hr1 hr2 hr4 hr5 hm
  · intro hmulti h
    unfold annotate_genomics_ann at h
    cases hdb : (get_annotations_ann data index columns).1 with
    | none =>
      rw [hdb] at h
      exact (Except.noConfusion h)
    | some dbdf =>
      rw [hdb] at h
      exact joinStageAnn_not_ok_of_multi index ann dbdf outA hmulti h

/-- Witness for the amended C4: `base.py` brings the composite index
`(gid, tid)` back intact through a join on the key column `k`;
`annotation.py` does the same for the single index `gid` but returns an
error, never a result, on the composite store. -/
theorem C4_index_round_trip_witness :
    annotate_genomics_base (fun _ _ => []) false W4data "k" ["x"]
      concat_uniques W4ann = .ok W4out ∧
    (W4out.idxNames = W4ann.idxNames ∧ W4out.idx = W4ann.idx) ∧
    annotate_genomics_ann W4data "k" ["x"] W4annS = .ok W4outS ∧
    (W4outS.idxNames = W4annS.idxNames ∧ W4outS.idx = W4annS.idx) ∧
    1 < W4ann.idxNames.length ∧
    ¬ annotate_genomics_ann W4data "k" ["x"] W4ann = .ok W4out :=
  ⟨by decide,
   (C4_index_round_trip (fun _ _ => []) W4data "k" ["x"] concat_uniques W4ann
      W4out W4out "gid" (by decide) (by decide) (by decide) (by decide)).1 (by decide),
   by decide,
   (C4_index_round_trip (fun _ _ => []) W4data "k" ["x"] concat_uniques W4annS
      W4out W4outS "gid" (by decide) (by decide) (by decide) (by decide)).2.1
     (by decide) (by decide),
   by decide,
   (C4_index_round_trip (fun _ _ => []) W4data "k" ["x"] concat_uniques W4ann
      W4out W4out "gid" (by decide) (by decide) (by decide) (by decide)).2.2
     (by decide)⟩

/-! The collision loop of `annotate_genomics`: shape and cell tracking. -/

theorem filter_of_map {α β : Type} (f : α → β) (p : β → Bool) :
    ∀ l : List α, (l.map f).filter p = (l.filter (fun a => p (f a))).map f := by
  intro l
  induction l with
  | nil => rfl
  | cons a l ih =>
    rw [List.map_cons, List.filter_cons, List.filter_cons]
    by_cases hp : p (f a)
    · simp only [hp, if_pos, List.map_cons, ih]
    · simp only [hp, if_neg, ih]
      simp [hp]

theorem rowCell_const_none : ∀ (cs : List String) (c : String),
    rowCell (cs.map (fun d => (d, (none : Cell)))) c = none := by
  intro cs c
  induction cs with
  | nil => rfl
  | cons d cs ih =>
    show (if d = c then none else rowCell (cs.map (fun d => (d, (none : Cell)))) c) = none
    rw [ih]
    split <;> rfl

theorem getD_mem_of_lt {α : Type} (d : α) : ∀ (l : List α) (i : Nat),
    i < l.length → l.getD i d ∈ l := by
  intro l
  induction l with
  | nil =>
    intro i h
    simp at h
  | cons a l ih =>
    intro i h
    cases i with
    | zero => exact List.mem_cons_self a l
    | succ j =>
      rw [List.getD_cons_succ]
      exact List.mem_cons_of_mem a (ih j (by simpa using h))

theorem getD_map_row (g : Row → Row) : ∀ (l : List Row) (i : Nat),
    i < l.length → (l.map g).getD i [] = g (l.getD i []) := by
  intro l
  induction l with
  | nil =>
    intro i h
    simp at h
  | cons r l ih =>
    intro i h
    cases i with
    | zero => rfl
    | succ j =>
      rw [List.map_cons, List.getD_cons_succ, List.getD_cons_succ]
      exact ih j (by simpa using h)

theorem map_zip_getD (g : List Cell × Row → Row) :
    ∀ (A : List (List Cell)) (R : List Row) (i : Nat), i < A.length → i < R.length →
    ((A.zip R).map g).getD i [] = g (A.getD i [], R.getD i []) := by
  intro A
  induction A with
  | nil =>
    intro R i h1 h2
    simp at h1
  | cons a A ih =>
    intro R i h1 h2
    cases R with
    | nil => simp at h2
    | cons r R =>
      cases i with
      | zero => rfl
      | succ j =>
        rw [List.zip_cons_cons, List.map_cons, List.getD_cons_succ,
          List.getD_cons_succ, List.getD_cons_succ]
        exact ih R j (by simpa using h1) (by simpa using h2)

theorem getD_map_gen {α β : Type} (g : α → β) (dA : α) (dB : β) :
    ∀ (l : List α) (i : Nat), i < l.length → (l.map g).getD i dB = g (l.getD i dA) := by
  intro l
  induction l with
  | nil =>
    intro i h
    simp at h
  | cons a l ih =>
    intro i h
    cases i with
    | zero => rfl
    | succ j =>
      rw [List.map_cons, List.getD_cons_succ, List.getD_cons_succ]
      exact ih j (by simpa using h)

theorem mergeGo_true_ok : ∀ (cs : List String) (st out : DF),
    mergeGo true st cs = .ok out →
    out.cols = st.cols.filter (fun y => ¬ y ∈ cs) ∧
    out.rows = st.rows.map (fun r => mergeRows cs r) := by
  intro cs
  induction cs with
  | nil =>
    intro st out h
    replace h : (Except.ok st : Except DF DF) = .ok out := h
    obtain rfl := Except.ok.inj h
    constructor
    · simp
    · simp [mergeRows]
  | cons x cs ih =>
    intro st out h
    unfold mergeGo at h
    split at h
    · exact (Except.noConfusion h)
    · rename_i st1 hfill
      rw [if_pos rfl] at h
      split at h
      · exact (Except.noConfusion h)
      · rename_i st2 hdropc
        obtain ⟨hcols2, hrows2⟩ := ih st2 out h
        obtain ⟨heq1, ht, hx⟩ := fillnaFromCol_spec st (stripUnderscores x) x st1 hfill
        obtain ⟨heq2, hx1⟩ := dropCol_spec st1 x st2 hdropc
        subst heq1
        subst heq2
        constructor
        · rw [hcols2]
          show (st.cols.filter (fun y => ¬ y = x)).filter (fun y => ¬ y ∈ cs)
            = st.cols.filter (fun y => ¬ y ∈ x :: cs)
          rw [List.filter_filter]
          apply List.filter_congr
          intro y hy
          by_cases h1 : y = x
          · simp [h1]
          · by_cases h2 : y ∈ cs <;> simp [h1, h2]
        · rw [hrows2]
          show ((st.rows.map (fun r =>
              r.map (fun p => if p.1 = stripUnderscores x then
                (p.1, p.2.orElse (fun _ => rowCell r x)) else p))).map
              (fun r => r.filter (fun p => ¬ p.1 = x))).map (fun r => mergeRows cs r)
            = st.rows.map (fun r => mergeRows (x :: cs) r)
          rw [List.map_map, List.map_map]
          rfl

theorem mergeLoop_true_ok_cols (st out : DF) (h : mergeLoop true st = .ok out) :
    ∀ y ∈ out.cols, strEndsUnderscore y = false := by
  unfold mergeLoop at h
  obtain ⟨hcols, -⟩ := mergeGo_true_ok (st.cols.filter (fun c => strEndsUnderscore c)) st out h
  intro y hy
  rw [hcols] at hy
  obtain ⟨hy1, hy2⟩ := List.mem_filter.1 hy
  by_cases hse : strEndsUnderscore y = true
  · exfalso
    have hyf : y ∈ st.cols.filter (fun c => strEndsUnderscore c) :=
      List.mem_filter.2 ⟨hy1, hse⟩
    simp only [decide_eq_true_eq] at hy2
    exact hy2 hyf
  · simpa using hse

theorem mergeRows_cell : ∀ (cs : List String) (r : Row) (c : String),
    cs.Nodup →
    (∀ x ∈ cs, x = stripUnderscores x ++ "_") →
    (∀ x ∈ cs, strEndsUnderscore (stripUnderscores x) = false) →
    ¬ c ∈ cs →
    c ∈ r.map Prod.fst →
    rowCell (mergeRows cs r) c =
      if (c ++ "_") ∈ cs then
        (rowCell r c).orElse (fun _ => rowCell r (c ++ "_"))
      else rowCell r c := by
  intro cs
  induction cs with
  | nil =>
    intro r c _ _ _ _ _
    rw [if_neg (by simp)]
    rfl
  | cons x cs ih =>
    intro r c hnd hsimple hclean hc hkey
    have hcx : ¬ c = x := fun he => hc (he ▸ List.mem_cons_self x cs)
    have hxs : x = stripUnderscores x ++ "_" := hsimple x (List.mem_cons_self x cs)
    have hxcl : strEndsUnderscore (stripUnderscores x) = false :=
      hclean x (List.mem_cons_self x cs)
    have hrec : mergeRows (x :: cs) r = mergeRows cs
        ((r.map (fun p => if p.1 = stripUnderscores x then
          (p.1, p.2.orElse (fun _ => rowCell r x)) else p)).filter
          (fun p => ¬ p.1 = x)) := rfl
    have hkeysfill : (r.map (fun p => if p.1 = stripUnderscores x then
        (p.1, p.2.orElse (fun _ => rowCell r x)) else p)).map Prod.fst
        = r.map Prod.fst :=
      map_fst_map_preserve r _ (fun p => by
        by_cases hp : p.1 = stripUnderscores x <;> simp [hp])
    have hkey1 : c ∈ ((r.map (fun p => if p.1 = stripUnderscores x then
        (p.1, p.2.orElse (fun _ => rowCell r x)) else p)).filter
          (fun p => ¬ p.1 = x)).map Prod.fst := by
      rw [map_fst_filter_keys (fun s => ¬ s = x), hkeysfill, List.mem_filter]
      exact ⟨hkey, by simpa using hcx⟩
    rw [hrec, ih _ c (List.nodup_cons.1 hnd).2
      (fun y hy => hsimple y (List.mem_cons_of_mem x hy))
      (fun y hy => hclean y (List.mem_cons_of_mem x hy))
      (fun hcc => hc (List.mem_cons_of_mem x hcc)) hkey1]
    by_cases hcx2 : c ++ "_" = x
    · have hstx : stripUnderscores x = c := by
        have h1 : c ++ "_" = stripUnderscores x ++ "_" := by rw [hcx2, ← hxs]
        exact (append_underscore_injective c (stripUnderscores x) h1).symm
      have hnotin : ¬ c ++ "_" ∈ cs := by
        rw [hcx2]
        exact (List.nodup_cons.1 hnd).1
      have h1 : rowCell ((r.map (fun p => if p.1 = stripUnderscores x then
          (p.1, p.2.orElse (fun _ => rowCell r x)) else p)).filter
            (fun p => ¬ p.1 = x)) c
          = (rowCell r c).orElse (fun _ => rowCell r x) := by
        rw [rowCell_filter_keys (fun s => ¬ s = x), if_pos (by simpa using hcx), hstx]
        exact rowCell_fillRow_self r c (rowCell r x) hkey
      rw [if_neg hnotin, h1, if_pos (by rw [hcx2]; exact List.mem_cons_self x cs), hcx2]
    · have hct : ¬ c = stripUnderscores x := by
        intro he
        exact hcx2 (by rw [he, ← hxs])
      have h1 : rowCell ((r.map (fun p => if p.1 = stripUnderscores x then
          (p.1, p.2.orElse (fun _ => rowCell r x)) else p)).filter
            (fun p => ¬ p.1 = x)) c = rowCell r c := by
        rw [rowCell_filter_keys (fun s => ¬ s = x), if_pos (by simpa using hcx)]
        exact rowCell_fillRow_ne r (stripUnderscores x) (rowCell r x) c hct
      by_cases hmem2 : c ++ "_" ∈ cs
      · have h2 : rowCell ((r.map (fun p => if p.1 = stripUnderscores x then
            (p.1, p.2.orElse (fun _ => rowCell r x)) else p)).filter
              (fun p => ¬ p.1 = x)) (c ++ "_") = rowCell r (c ++ "_") := by
          rw [rowCell_filter_keys (fun s => ¬ s = x), if_pos (by simpa using hcx2)]
          apply rowCell_fillRow_ne
          intro he
          have h3 := strEndsUnderscore_append c
          rw [he, hxcl] at h3
          exact Bool.noConfusion h3
        rw [if_pos hmem2, h1, h2, if_pos (List.mem_cons_of_mem x hmem2)]
      · rw [if_neg hmem2, h1, if_neg (by
          intro hmm
          rcases List.mem_cons.1 hmm with h4 | h4
          · exact hcx2 h4
          · exact hmem2 h4)]

theorem rowCell_joinTail_shared (r : DF) (lcols : List String) (k : List Cell)
    (c : String)
    (hr : ∀ rr ∈ r.rows, rr.map Prod.fst = r.cols)
    (hcL : c ∈ lcols)
    (hcln : ∀ y ∈ r.cols, cleanName y)
    (hc : cleanName c) :
    rowCell (joinTail r lcols k) (c ++ "_") = incomingAt r k c := by
  have hrn : renameR lcols c = c ++ "_" := by
    unfold renameR
    rw [if_pos hcL]
  unfold joinTail incomingAt
  cases hm : rightMatches r k with
  | nil =>
    have hsplit : r.cols.map (fun d => (renameR lcols d, (none : Cell)))
        = (r.cols.map (fun d => (d, (none : Cell)))).map
            (fun q => (renameR lcols q.1, q.2)) := by
      rw [List.map_map]
      rfl
    rw [hsplit, ← hrn]
    rw [rowCell_map_rename (r.cols.map (fun d => (d, (none : Cell))))
      (renameR lcols) c (by
        intro kk hkk he
        rw [map_fst_graph] at hkk
        exact renameR_injOn lcols kk c (hcln kk hkk) hc he)]
    exact rowCell_const_none r.cols c
  | cons rr rest =>
    have hkeys : rr.map Prod.fst = r.cols :=
      hr rr (mem_rightMatches r k rr (hm ▸ List.mem_cons_self rr rest))
    rw [← hrn]
    exact rowCell_map_rename rr (renameR lcols) c (by
      intro kk hkk he
      rw [hkeys] at hkk
      exact renameR_injOn lcols kk c (hcln kk hkk) hc he)

/-- C3 counterexample.  (i) In `annotation.py` the drop of the suffixed
incoming column is commented out (line 168), so the marker column
survives the call: joining a resource sharing column `x` leaves a
column `x_` in the annotations.  (ii) In `base.py` a store column whose
own name wears the underscore marker (`_x_`) is picked up by the
collision loop, which strips it to `x` and fills the shared column from
it: the join succeeds with `x = 5` where the claim demands the incoming
`9`.  (iii) Likewise a resource column named `_x_` fills `x` with `7`
where both the existing and the incoming `x` entries are missing, so
the merge draws on a column the claim never mentions.  The drop
carve-out and the name hygiene of the amendment are both forced. -/
theorem C3_marker_column_retained_counterexample :
    (exIsOk (annotate_genomics_ann X3data "gene_id" ["x"] X3ann) = true ∧
      ("x" ++ "_") ∈ (exState (annotate_genomics_ann X3data "gene_id" ["x"] X3ann)).cols) ∧
    (annotate_genomics_base (fun _ _ => []) false X3data "gene_id" ["x"]
        concat_uniques X3uann
      = .ok { idxNames := ["gene_id"], idx := [[some "G1"]], cols := ["x"],
              rows := [[("x", some "5")]] }) ∧
    (annotate_genomics_base (fun _ _ => []) false X3vdata "gene_id" ["x", "_x_"]
        concat_uniques X3vann
      = .ok { idxNames := ["gene_id"], idx := [[some "G1"]], cols := ["x"],
              rows := [[("x", some "7")]] }) :=
  ⟨⟨by decide, by decide⟩, by decide, by decide⟩

/-- C3 amended (`base.py`, both join paths): when the store and the
aggregated resource share a column `c` and all the names in play
(store columns, resource columns, index level names and the join key)
are hygienic — nonempty, not starting and not ending with the
underscore marker — a successful `annotate_genomics` keeps every
existing non-missing value of `c`, fills only the missing entries with
the incoming value at the same key, and drops the suffixed incoming
column, so no marker-suffixed column remains.  `annotation.py` keeps
the marker column (counterexample (i)); without hygiene the loop can
fill from unrelated columns (counterexamples (ii), (iii)). -/
theorem C3_column_collision_merge
    (matcher : Val → List (List Cell) → List Val)
    (data dbdf ann out : DF) (index : String) (columns : List String)
    (red : List Cell → Cell) (c : String)
    (hwf : ann.WF)
    (hCleanL : ∀ y ∈ ann.cols, cleanName y)
    (hCleanR : ∀ y ∈ dbdf.cols, cleanName y)
    (hCleanN : ∀ y ∈ ann.idxNames, cleanName y)
    (hCleanI : cleanName index)
    (hndR : dbdf.cols.Nodup)
    (hget : (get_annotations_base data index columns red).1 = some dbdf)
    (h : annotate_genomics_base matcher false data index columns red ann = .ok out)
    (hcL : c ∈ ann.cols) (hcR : c ∈ dbdf.cols) :
    (∀ y ∈ out.cols, strEndsUnderscore y = false) ∧
    out.rows.length = ann.rows.length ∧
    ∀ i, i < ann.rows.length →
      rowCell (out.rows.getD i []) c
        = (rowCell (ann.rows.getD i []) c).orElse
            (fun _ => incomingAt dbdf (keyAt ann index i) c) := by
  obtain ⟨hwfR, hndIdx, hidxN, hcolsR, hsing⟩ :=
    get_annotations_base_facts data index columns red dbdf hget
  obtain ⟨hal, hrowsKeys, hwidth⟩ := hwf
  unfold annotate_genomics_base at h
  rw [hget] at h
  replace h : joinStage true index ann dbdf = .ok out := h
  refine ⟨?_, ?_, ?_⟩
  · by_cases hA : ann.idxNames = [index]
    · exact mergeLoop_true_ok_cols _ out (joinStage_pathA_ok true index ann dbdf out hA h)
    · obtain ⟨s1, s2, s4, s5, -, -, -, -, hm⟩ :=
        joinStage_pathB_ok true index ann dbdf out hA h
      exact mergeLoop_true_ok_cols s5 out hm
  · exact (joinStage_ok_rows true index ann dbdf out hal hndIdx h).1
  · intro i hi
    by_cases hA : ann.idxNames = [index]
    · -- join keyed on the active index
      have hkeyA : keyAt ann index i = ann.idx.getD i [] := by
        unfold keyAt
        rw [if_pos hA]
      rw [hkeyA]
      have hm : mergeLoop true (joinDF ann dbdf) = .ok out :=
        joinStage_pathA_ok true index ann dbdf out hA h
      unfold mergeLoop at hm
      obtain ⟨hcols2, hrows2⟩ := mergeGo_true_ok
        ((joinDF ann dbdf).cols.filter (fun c2 => strEndsUnderscore c2))
        (joinDF ann dbdf) out hm
      have hJcols : (joinDF ann dbdf).cols
          = ann.cols ++ dbdf.cols.map (renameR ann.cols) := rfl
      have hdups : (joinDF ann dbdf).cols.filter (fun y => strEndsUnderscore y)
          = (dbdf.cols.filter (fun y => y ∈ ann.cols)).map (fun y => y ++ "_") := by
        rw [hJcols, List.filter_append]
        have hA1 : ann.cols.filter (fun y => strEndsUnderscore y) = [] := by
          rw [List.filter_eq_nil_iff]
          intro y hy
          rw [cleanName_not_endsUnderscore y (hCleanL y hy)]
          simp
        rw [hA1, List.nil_append, filter_of_map]
        rw [List.filter_congr (fun y hy => show strEndsUnderscore (renameR ann.cols y)
            = decide (y ∈ ann.cols) by
          unfold renameR
          by_cases hyL : y ∈ ann.cols
          · rw [if_pos hyL, strEndsUnderscore_append]
            simp [hyL]
          · rw [if_neg hyL, cleanName_not_endsUnderscore y (hCleanR y hy)]
            simp [hyL])]
        apply List.map_congr_left
        intro y hy
        unfold renameR
        rw [if_pos (by simpa using (List.mem_filter.1 hy).2)]
      have hndDups : ((joinDF ann dbdf).cols.filter
          (fun y => strEndsUnderscore y)).Nodup := by
        rw [hdups]
        exact (hndR.filter _).map (fun a b hab => append_underscore_injective a b hab)
      have hstrip : ∀ x ∈ (joinDF ann dbdf).cols.filter (fun y => strEndsUnderscore y),
          x = stripUnderscores x ++ "_" ∧
          strEndsUnderscore (stripUnderscores x) = false := by
        intro x hx
        rw [hdups] at hx
        obtain ⟨d, hd, hdx⟩ := List.mem_map.1 hx
        have hcln : cleanName d := hCleanR d (List.mem_of_mem_filter hd)
        rw [← hdx, stripUnderscores_append d hcln]
        exact ⟨rfl, cleanName_not_endsUnderscore d hcln⟩
      have hJlen : (joinDF ann dbdf).rows.length = ann.rows.length :=
        joinDF_rows_length ann dbdf hal hndIdx
      have hrowsJ : (joinDF ann dbdf).rows = (ann.idx.zip ann.rows).map
          (fun p => p.2 ++ joinTail dbdf ann.cols p.1) :=
        joinDF_rows ann dbdf hndIdx
      have hgetJ : (joinDF ann dbdf).rows.getD i []
          = (ann.rows.getD i []) ++ joinTail dbdf ann.cols (ann.idx.getD i []) := by
        rw [hrowsJ]
        exact map_zip_getD (fun p => p.2 ++ joinTail dbdf ann.cols p.1)
          ann.idx ann.rows i (by rw [hal]; exact hi) hi
      have hout_i : out.rows.getD i []
          = mergeRows ((joinDF ann dbdf).cols.filter (fun c2 => strEndsUnderscore c2))
              ((joinDF ann dbdf).rows.getD i []) := by
        rw [hrows2]
        exact getD_map_row _ (joinDF ann dbdf).rows i (by rw [hJlen]; exact hi)
      have hrowmem : ann.rows.getD i [] ∈ ann.rows := getD_mem_of_lt [] ann.rows i hi
      have hkeysAnn : (ann.rows.getD i []).map Prod.fst = ann.cols :=
        hrowsKeys _ hrowmem
      have hkeymemL : c ∈ (ann.rows.getD i []).map Prod.fst := by
        rw [hkeysAnn]
        exact hcL
      have hnotkeyL : ¬ (c ++ "_") ∈ (ann.rows.getD i []).map Prod.fst := by
        rw [hkeysAnn]
        intro hmm
        have h1 := cleanName_not_endsUnderscore _ (hCleanL _ hmm)
        rw [strEndsUnderscore_append] at h1
        exact Bool.noConfusion h1
      have hkeymem : c ∈ ((joinDF ann dbdf).rows.getD i []).map Prod.fst := by
        rw [hgetJ, List.map_append]
        exact List.mem_append_left _ hkeymemL
      have hcnot : ¬ c ∈ (joinDF ann dbdf).cols.filter
          (fun c2 => strEndsUnderscore c2) := by
        intro hcc
        have h1 := (List.mem_filter.1 hcc).2
        rw [cleanName_not_endsUnderscore c (hCleanL c hcL)] at h1
        exact Bool.noConfusion h1
      have hcin : (c ++ "_") ∈ (joinDF ann dbdf).cols.filter
          (fun c2 => strEndsUnderscore c2) := by
        rw [hdups]
        exact List.mem_map.2 ⟨c, List.mem_filter.2 ⟨hcR, by simpa using hcL⟩, rfl⟩
      rw [hout_i, mergeRows_cell
        ((joinDF ann dbdf).cols.filter (fun c2 => strEndsUnderscore c2))
        ((joinDF ann dbdf).rows.getD i []) c hndDups
        (fun x hx => (hstrip x hx).1)
        (fun x hx => (hstrip x hx).2)
        hcnot hkeymem]
      rw [if_pos hcin, hgetJ]
      rw [rowCell_append_left (ann.rows.getD i [])
        (joinTail dbdf ann.cols (ann.idx.getD i [])) c hkeymemL]
      rw [rowCell_append_right (ann.rows.getD i [])
        (joinTail dbdf ann.cols (ann.idx.getD i [])) (c ++ "_") hnotkeyL]
      rw [rowCell_joinTail_shared dbdf ann.cols (ann.idx.getD i []) c
        hwfR.2.1 hcL hCleanR (hCleanL c hcL)]
    · -- join keyed off the active index: reset, re-key, join, restore
      obtain ⟨s1, s2, s4, s5, hr1, hr2, hr4, hr5, hm⟩ :=
        joinStage_pathB_ok true index ann dbdf out hA h
      obtain ⟨heq1, hdisj1⟩ := resetIndexOpt_spec ann s1 hr1
      obtain ⟨heq2, -⟩ := setIndexMany_spec s1 [index] s2 hr2
      obtain ⟨heq4, hdisj4⟩ := resetIndexOpt_spec (joinDF s2 dbdf) s4 hr4
      obtain ⟨heq5, -⟩ := setIndexMany_spec s4 ann.idxNames s5 hr5
      unfold mergeLoop at hm
      obtain ⟨hcols5, hrows5⟩ := mergeGo_true_ok
        (s5.cols.filter (fun c2 => strEndsUnderscore c2)) s5 out hm
      have hj2names : (joinDF s2 dbdf).idxNames = [index] := by
        show s2.idxNames = [index]
        rw [heq2]
      have hs1cols : s1.cols = ann.idxNames ++ ann.cols := by
        rw [heq1]
      have hs2cols : s2.cols = (ann.idxNames ++ ann.cols).filter
          (fun y => ¬ y ∈ [index]) := by
        rw [heq2, hs1cols]
      have hJ2cols : (joinDF s2 dbdf).cols
          = s2.cols ++ dbdf.cols.map (renameR s2.cols) := rfl
      have hs4cols : s4.cols = [index] ++ (joinDF s2 dbdf).cols := by
        rw [heq4, hj2names]
      have hs5cols : s5.cols = s4.cols.filter (fun y => ¬ y ∈ ann.idxNames) := by
        rw [heq5]
      have hIs2 : ¬ index ∈ s2.cols := by
        rw [hs2cols]
        simp
      have hcI : ¬ c = index := by
        intro he
        refine hdisj4 index (by rw [hj2names]; exact List.mem_cons_self index []) ?_
        rw [hJ2cols]
        refine List.mem_append_right _ (List.mem_map.2 ⟨index, he ▸ hcR, ?_⟩)
        unfold renameR
        rw [if_neg hIs2]
      have hcN : ¬ c ∈ ann.idxNames := fun hcc => hdisj1 c hcc hcL
      have hcs2 : c ∈ s2.cols := by
        rw [hs2cols, List.mem_filter]
        exact ⟨List.mem_append_right _ hcL, by simpa using hcI⟩
      have hs1len : s1.rows.length = ann.rows.length := by
        rw [heq1]
        simp [List.length_zip, hal]
      have hs2len : s2.rows.length = s1.rows.length := by
        rw [heq2]
        simp
      have hs2al : s2.idx.length = s2.rows.length := by
        rw [heq2]
        simp
      have hJ2len : (joinDF s2 dbdf).rows.length = s2.rows.length :=
        joinDF_rows_length s2 dbdf hs2al hndIdx
      have hJ2al : (joinDF s2 dbdf).idx.length = (joinDF s2 dbdf).rows.length :=
        joinDF_aligned s2 dbdf
      have hs4len : s4.rows.length = (joinDF s2 dbdf).rows.length := by
        rw [heq4]
        simp [List.length_zip, hJ2al]
      have hs5len : s5.rows.length = s4.rows.length := by
        rw [heq5]
        simp
      have hi1 : i < s1.rows.length := by
        rw [hs1len]
        exact hi
      have hi2 : i < s2.rows.length := by
        rw [hs2len]
        exact hi1
      have hiJr : i < (joinDF s2 dbdf).rows.length := by
        rw [hJ2len]
        exact hi2
      have hiJi : i < (joinDF s2 dbdf).idx.length := by
        rw [hJ2al]
        exact hiJr
      have hi4 : i < s4.rows.length := by
        rw [hs4len]
        exact hiJr
      have hi5 : i < s5.rows.length := by
        rw [hs5len]
        exact hi4
      have hr1row : s1.rows.getD i []
          = (ann.idxNames.zip (ann.idx.getD i [])) ++ ann.rows.getD i [] := by
        rw [heq1]
        exact map_zip_getD (fun p => (ann.idxNames.zip p.1) ++ p.2)
          ann.idx ann.rows i (by rw [hal]; exact hi) hi
      have hr2row : s2.rows.getD i []
          = (s1.rows.getD i []).filter (fun p => ¬ p.1 ∈ [index]) := by
        rw [heq2]
        exact getD_map_row (fun r => r.filter (fun p => ¬ p.1 ∈ [index])) s1.rows i hi1
      have hr2idx : s2.idx.getD i [] = [rowCell (s1.rows.getD i []) index] := by
        rw [heq2]
        exact getD_map_gen (fun r => [index].map (fun c2 => rowCell r c2)) [] []
          s1.rows i hi1
      have hJ2idx : (joinDF s2 dbdf).idx = s2.idx := joinDF_idx s2 dbdf hs2al hndIdx
      have hJ2rows : (joinDF s2 dbdf).rows = (s2.idx.zip s2.rows).map
          (fun p => p.2 ++ joinTail dbdf s2.cols p.1) := joinDF_rows s2 dbdf hndIdx
      have hJ2row_i : (joinDF s2 dbdf).rows.getD i []
          = (s2.rows.getD i []) ++ joinTail dbdf s2.cols (s2.idx.getD i []) := by
        rw [hJ2rows]
        exact map_zip_getD (fun p => p.2 ++ joinTail dbdf s2.cols p.1)
          s2.idx s2.rows i (by rw [hs2al]; exact hi2) hi2
      have hr4row : s4.rows.getD i []
          = ([index].zip [rowCell (s1.rows.getD i []) index]) ++
              ((s2.rows.getD i []) ++ joinTail dbdf s2.cols (s2.idx.getD i [])) := by
        have h0 : s4.rows.getD i []
            = (((joinDF s2 dbdf).idxNames).zip ((joinDF s2 dbdf).idx.getD i [])) ++
                (joinDF s2 dbdf).rows.getD i [] := by
          rw [heq4]
          exact map_zip_getD (fun p => (((joinDF s2 dbdf).idxNames).zip p.1) ++ p.2)
            (joinDF s2 dbdf).idx (joinDF s2 dbdf).rows i hiJi hiJr
        rw [h0, hj2names, hJ2idx, hJ2row_i, hr2idx]
      have hr5row : s5.rows.getD i []
          = (s4.rows.getD i []).filter (fun p => ¬ p.1 ∈ ann.idxNames) := by
        rw [heq5]
        exact getD_map_row (fun r => r.filter (fun p => ¬ p.1 ∈ ann.idxNames))
          s4.rows i hi4
      have hrowmem : ann.rows.getD i [] ∈ ann.rows := getD_mem_of_lt [] ann.rows i hi
      have hkeysAnn : (ann.rows.getD i []).map Prod.fst = ann.cols :=
        hrowsKeys _ hrowmem
      have hwid_i : (ann.idx.getD i []).length = ann.idxNames.length :=
        hwidth _ (getD_mem_of_lt [] ann.idx i (by rw [hal]; exact hi))
      have hzipkeys : (ann.idxNames.zip (ann.idx.getD i [])).map Prod.fst
          = ann.idxNames :=
        List.map_fst_zip _ _ (le_of_eq hwid_i.symm)
      have hkeys1 : (s1.rows.getD i []).map Prod.fst = ann.idxNames ++ ann.cols := by
        rw [hr1row, List.map_append, hzipkeys, hkeysAnn]
      have hzk1 : ([index].zip [rowCell (s1.rows.getD i []) index]).map Prod.fst
          = [index] :=
        List.map_fst_zip _ _ (by simp)
      have hc2keys : c ∈ (s2.rows.getD i []).map Prod.fst := by
        rw [hr2row, map_fst_filter_keys (fun s => ¬ s ∈ [index]), hkeys1,
          List.mem_filter]
        exact ⟨List.mem_append_right _ hcL, by simpa using hcI⟩
      have hcu_not2 : ¬ (c ++ "_") ∈ (s2.rows.getD i []).map Prod.fst := by
        rw [hr2row, map_fst_filter_keys (fun s => ¬ s ∈ [index]), hkeys1]
        intro hmm
        rcases List.mem_append.1 (List.mem_of_mem_filter hmm) with h2 | h2
        · have h3 := cleanName_not_endsUnderscore _ (hCleanN _ h2)
          rw [strEndsUnderscore_append] at h3
          exact Bool.noConfusion h3
        · have h3 := cleanName_not_endsUnderscore _ (hCleanL _ h2)
          rw [strEndsUnderscore_append] at h3
          exact Bool.noConfusion h3
      have hcell_c : rowCell (s5.rows.getD i []) c
          = rowCell (ann.rows.getD i []) c := by
        rw [hr5row, rowCell_filter_keys (fun s => ¬ s ∈ ann.idxNames) _ c,
          if_pos (by simpa using hcN)]
        rw [hr4row]
        rw [rowCell_append_right ([index].zip [rowCell (s1.rows.getD i []) index])
          ((s2.rows.getD i []) ++ joinTail dbdf s2.cols (s2.idx.getD i [])) c
          (by rw [hzk1]; simpa using hcI)]
        rw [rowCell_append_left (s2.rows.getD i [])
          (joinTail dbdf s2.cols (s2.idx.getD i [])) c hc2keys]
        rw [hr2row, rowCell_filter_keys (fun s => ¬ s ∈ [index]) _ c,
          if_pos (by simpa using hcI)]
        rw [hr1row]
        rw [rowCell_append_right (ann.idxNames.zip (ann.idx.getD i []))
          (ann.rows.getD i []) c (by rw [hzipkeys]; exact hcN)]
      have hcell_cu : rowCell (s5.rows.getD i []) (c ++ "_")
          = incomingAt dbdf (s2.idx.getD i []) c := by
        rw [hr5row, rowCell_filter_keys (fun s => ¬ s ∈ ann.idxNames) _ (c ++ "_"),
          if_pos (by
            simp only [decide_eq_true_eq]
            intro hmm
            have h3 := cleanName_not_endsUnderscore _ (hCleanN _ hmm)
            rw [strEndsUnderscore_append] at h3
            exact Bool.noConfusion h3)]
        rw [hr4row]
        rw [rowCell_append_right ([index].zip [rowCell (s1.rows.getD i []) index])
          ((s2.rows.getD i []) ++ joinTail dbdf s2.cols (s2.idx.getD i [])) (c ++ "_")
          (by
            rw [hzk1]
            simp only [List.mem_singleton]
            intro he
            have h3 := cleanName_not_endsUnderscore index hCleanI
            rw [← he, strEndsUnderscore_append] at h3
            exact Bool.noConfusion h3)]
        rw [rowCell_append_right (s2.rows.getD i [])
          (joinTail dbdf s2.cols (s2.idx.getD i [])) (c ++ "_") hcu_not2]
        exact rowCell_joinTail_shared dbdf s2.cols (s2.idx.getD i []) c
          hwfR.2.1 hcs2 hCleanR (hCleanL c hcL)
      have hdups5 : s5.cols.filter (fun y => strEndsUnderscore y)
          = (dbdf.cols.filter (fun y => y ∈ s2.cols)).map (fun y => y ++ "_") := by
        rw [hs5cols, List.filter_filter, hs4cols, List.filter_append, hJ2cols,
          List.filter_append]
        have hseg1 : [index].filter
            (fun y => strEndsUnderscore y && decide (¬ y ∈ ann.idxNames)) = [] := by
          rw [List.filter_eq_nil_iff]
          intro y hy
          rw [List.mem_singleton] at hy
          subst hy
          rw [cleanName_not_endsUnderscore y hCleanI]
          simp
        have hseg2 : s2.cols.filter
            (fun y => strEndsUnderscore y && decide (¬ y ∈ ann.idxNames)) = [] := by
          rw [List.filter_eq_nil_iff]
          intro y hy
          rw [hs2cols] at hy
          rcases List.mem_append.1 (List.mem_of_mem_filter hy) with h2 | h2
          · rw [cleanName_not_endsUnderscore y (hCleanN y h2)]
            simp
          · rw [cleanName_not_endsUnderscore y (hCleanL y h2)]
            simp
        rw [hseg1, hseg2, List.nil_append, List.nil_append, filter_of_map]
        rw [List.filter_congr (fun d hd =>
          show (strEndsUnderscore (renameR s2.cols d) &&
              decide (¬ renameR s2.cols d ∈ ann.idxNames)) = decide (d ∈ s2.cols) by
          unfold renameR
          by_cases hd2 : d ∈ s2.cols
          · rw [if_pos hd2, strEndsUnderscore_append]
            have h4 : ¬ (d ++ "_") ∈ ann.idxNames := by
              intro hmm
              have h3 := cleanName_not_endsUnderscore _ (hCleanN _ hmm)
              rw [strEndsUnderscore_append] at h3
              exact Bool.noConfusion h3
            simp [hd2, h4]
          · rw [if_neg hd2, cleanName_not_endsUnderscore d (hCleanR d hd)]
            simp [hd2])]
        apply List.map_congr_left
        intro y hy
        unfold renameR
        rw [if_pos (by simpa using (List.mem_filter.1 hy).2)]
      have hnd5 : (s5.cols.filter (fun y => strEndsUnderscore y)).Nodup := by
        rw [hdups5]
        exact (hndR.filter _).map (fun a b hab => append_underscore_injective a b hab)
      have hstrip5 : ∀ x ∈ s5.cols.filter (fun y => strEndsUnderscore y),
          x = stripUnderscores x ++ "_" ∧
          strEndsUnderscore (stripUnderscores x) = false := by
        intro x hx
        rw [hdups5] at hx
        obtain ⟨d, hd, hdx⟩ := List.mem_map.1 hx
        have hcln : cleanName d := hCleanR d (List.mem_of_mem_filter hd)
        rw [← hdx, stripUnderscores_append d hcln]
        exact ⟨rfl, cleanName_not_endsUnderscore d hcln⟩
      have hcnot5 : ¬ c ∈ s5.cols.filter (fun y => strEndsUnderscore y) := by
        intro hcc
        have h1 := (List.mem_filter.1 hcc).2
        rw [cleanName_not_endsUnderscore c (hCleanL c hcL)] at h1
        exact Bool.noConfusion h1
      have hcin5 : (c ++ "_") ∈ s5.cols.filter (fun y => strEndsUnderscore y) := by
        rw [hdups5]
        exact List.mem_map.2 ⟨c, List.mem_filter.2 ⟨hcR, by simpa using hcs2⟩, rfl⟩
      have hkey5 : c ∈ (s5.rows.getD i []).map Prod.fst := by
        rw [hr5row, map_fst_filter_keys (fun s => ¬ s ∈ ann.idxNames),
          List.mem_filter]
        constructor
        · rw [hr4row, List.map_append, List.map_append]
          exact List.mem_append_right _ (List.mem_append_left _ hc2keys)
        · simpa using hcN
      have hout_i : out.rows.getD i []
          = mergeRows (s5.cols.filter (fun y => strEndsUnderscore y))
              (s5.rows.getD i []) := by
        rw [hrows5]
        exact getD_map_row _ s5.rows i hi5
      have hkeyB : keyAt ann index i
          = [rowCell ((ann.idxNames.zip (ann.idx.getD i [])) ++ ann.rows.getD i [])
              index] := by
        unfold keyAt
        rw [if_neg hA]
      rw [hout_i, mergeRows_cell (s5.cols.filter (fun y => strEndsUnderscore y))
        (s5.rows.getD i []) c hnd5
        (fun x hx => (hstrip5 x hx).1)
        (fun x hx => (hstrip5 x hx).2)
        hcnot5 hkey5]
      rw [if_pos hcin5, hcell_c, hcell_cu, hkeyB, hr2idx, hr1row]

/-- Witness for the amended C3: a two row store joined off-index on the
key column `k` keeps the present `x` value `1`, fills the missing entry
from the incoming `7`, and ends with no marker column. -/
theorem C3_column_collision_merge_witness :
    (∀ y ∈ W3bout.cols, strEndsUnderscore y = false) ∧
    W3bout.rows.length = W3bann.rows.length ∧
    (∀ i, i < W3bann.rows.length →
      rowCell (W3bout.rows.getD i []) "x"
        = (rowCell (W3bann.rows.getD i []) "x").orElse
            (fun _ => incomingAt W3bdb (keyAt W3bann "k" i) "x")) :=
  C3_column_collision_merge (fun _ _ => []) W3bdata W3bdb W3bann W3bout "k" ["x"]
    concat_uniques "x" (by decide) (by decide) (by decide) (by decide) (by decide)
    (by decide) (by decide) (by decide) (by decide) (by decide)
